import Mathlib

/-! Shallow embedding of the HL7 bulk message editor core (src/app1.py).

Text is modelled as List Char.  Python's str.split(sep), sep.join(list),
str.strip(), str.replace('\r','\n'), str.lower() and
re.split with the zero-width lookahead (?=MSH|) are modelled by the
structurally recursive functions below.  Field addresses such as "5" and
"5.2" are modelled already parsed into a field index and an optional
component index, exactly the shape the source recovers with
field.split('.') and int(). -/

def str (s : String) : List Char :=
  s.data

/-- consHead c L prepends the character c to the first chunk of L. -/
def consHead (c : Char) : List (List Char) → List (List Char)
  | [] => [[c]]
  | h :: t => (c :: h) :: t

/-- splitOnC models Python str.split(sep) for a one-character separator:
every occurrence of the separator starts a new chunk, empty chunks are
kept, and the result is never the empty list. -/
def splitOnC (sep : Char) : List Char → List (List Char)
  | [] => [[]]
  | c :: rest =>
    if c = sep then [] :: splitOnC sep rest
    else consHead c (splitOnC sep rest)

/-- joinWith models Python sep.join(chunks) for a one-character separator. -/
def joinWith (sep : Char) : List (List Char) → List Char
  | [] => []
  | [x] => x
  | x :: y :: t => x ++ sep :: joinWith sep (y :: t)

/-- isSpc models the ASCII whitespace stripped by Python str.strip(). -/
def isSpc (c : Char) : Bool :=
  c = ' ' || c = '\t' || c = '\n' || c = '\r' || c = '\x0b' || c = '\x0c'

/-- lstrip models Python str.lstrip(). -/
def lstrip (l : List Char) : List Char :=
  l.dropWhile isSpc

/-- rstrip models Python str.rstrip(). -/
def rstrip (l : List Char) : List Char :=
  (l.reverse.dropWhile isSpc).reverse

/-- strip models Python str.strip(). -/
def strip (l : List Char) : List Char :=
  rstrip (lstrip l)

/-- startsW pat l models Python l.startswith(pat). -/
def startsW : List Char → List Char → Bool
  | [], _ => true
  | _ :: _, [] => false
  | p :: ps, c :: cs => p = c && startsW ps cs

/-- containsSeq pat l decides whether pat occurs as a contiguous block
inside l (Python: pat in l). -/
def containsSeq (pat : List Char) : List Char → Bool
  | [] => pat.isEmpty
  | c :: rest => startsW pat (c :: rest) || containsSeq pat rest

/-- marker is the HL7 message header marker MSH followed by the field
separator, the split point of re.split in split_hl7_messages. -/
def marker : List Char :=
  ['M', 'S', 'H', '|']

/-- crlf models raw_text.replace('\r', '\n') (a per-character map, since
both operands are single characters). -/
def crlf (l : List Char) : List Char :=
  l.map (fun c => if c = '\r' then '\n' else c)

/-- msplitAux cur l models re.split(r'(?=MSH\|)', text): it scans l and
closes the chunk accumulated (reversed) in cur at every position where
the marker begins, the marker staying at the start of the next chunk.
A marker at position zero yields an empty first chunk, as re.split does
for a zero-width match at the start. -/
def msplitAux (cur : List Char) : List Char → List (List Char)
  | [] => [cur.reverse]
  | c :: rest =>
    if startsW marker (c :: rest) then cur.reverse :: msplitAux [c] rest
    else msplitAux (c :: cur) rest

/-- split_hl7_messages models the source function of the same name:
normalize CR to LF, split before every MSH| marker, strip each chunk and
drop the chunks that strip to nothing. -/
def split_hl7_messages (raw : List Char) : List (List Char) :=
  ((msplitAux [] (crlf raw)).map strip).filter (fun m => !m.isEmpty)

/-- breakMarker l splits l at the first occurrence of the marker:
the first part has no occurrence and the second part, if nonempty,
begins with the marker.  Used only to reason about msplitAux. -/
def breakMarker : List Char → List Char × List Char
  | [] => ([], [])
  | c :: rest =>
    if startsW marker (c :: rest) then ([], c :: rest)
    else
      let p := breakMarker rest
      (c :: p.1, p.2)

/-- FAddr is a parsed field selector: fi is the 1-based field index
(index 0 being the segment type), ci the optional 1-based component
index, i.e. the result of field.split('.') and int() in the source. -/
structure FAddr where
  fi : Nat
  ci : Option Nat
deriving DecidableEq

/-- FilterPred is one (segment, field, expected value) filter triple. -/
structure FilterPred where
  seg : List Char
  addr : FAddr
  val : List Char
deriving DecidableEq

/-- EditOp is one (segment, field, new value) edit triple. -/
structure EditOp where
  seg : List Char
  addr : FAddr
  val : List Char
deriving DecidableEq

/-- EditGroup is one filters-plus-edits group of the UI. -/
structure EditGroup where
  filters : List FilterPred
  edits : List EditOp
deriving DecidableEq

/-- truthyCi models Python's `if c_idx:` truthiness on the optional
component index: None and 0 are falsy. -/
def truthyCi : Option Nat → Bool
  | none => false
  | some k => !(k == 0)

/-- predHolds models one iteration of the filter loop in
segment_line_matches: out-of-range field index fails, a truthy component
index selects a component (failing when out of range), otherwise the
whole field is compared, by exact equality. -/
def predHolds (parts : List (List Char)) (a : FAddr) (expected : List Char) : Bool :=
  if a.fi < parts.length then
    let v := parts.getD a.fi []
    if truthyCi a.ci then
      let c := a.ci.getD 0
      let comps := splitOnC '^' v
      if comps.length < c then false
      else comps.getD (c - 1) [] == expected
    else v == expected
  else false

/-- segment_line_matches models the source function of the same name:
a conjunction of predHolds over the filter list. -/
def segment_line_matches (parts : List (List Char)) (fs : List (FAddr × List Char)) : Bool :=
  fs.all (fun fv => predHolds parts fv.1 fv.2)

/-- msgLines models message.split('\n'). -/
def msgLines (message : List Char) : List (List Char) :=
  splitOnC '\n' message

/-- segPartsOfType models grouped[seg] in
message_satisfies_filters_exact_lines: the '|'-split parts of each
non-blank line of the message whose segment type equals seg, in order. -/
def segPartsOfType (message : List Char) (seg : List Char) : List (List (List Char)) :=
  ((msgLines message).filter (fun l => !(strip l).isEmpty)).filterMap
    (fun l =>
      let parts := splitOnC '|' l
      if parts.getD 0 [] == seg then some parts else none)

/-- segKeys models the iteration order of filters_by_segment.items():
the distinct segment types of the filter list in order of first
occurrence (Python dicts preserve insertion order). -/
def segKeys (filters : List FilterPred) : List (List Char) :=
  filters.foldl (fun acc f => if acc.contains f.seg then acc else acc ++ [f.seg]) []

/-- filtersFor models filters_by_segment[seg]: the (address, value)
pairs of the filters whose segment type equals seg, in order. -/
def filtersFor (filters : List FilterPred) (seg : List Char) : List (FAddr × List Char) :=
  filters.filterMap (fun f => if f.seg == seg then some (f.addr, f.val) else none)

/-- findIdxO p l is the index of the first element of l satisfying p. -/
def findIdxO (p : α → Bool) : List α → Option Nat
  | [] => none
  | x :: xs => if p x then some 0 else (findIdxO p xs).map (fun i => i + 1)

/-- msfLoop models the per-segment loop of
message_satisfies_filters_exact_lines, including its use of one shared
matched_keys set across all segment types: the index of the first
matching line of each segment type is appended, and after each segment
type the loop fails only when that shared set is still empty. -/
def msfLoop (message : List Char) (filters : List FilterPred) :
    List (List Char) → List (List Char × Nat) → Bool × List (List Char × Nat)
  | [], keys => (true, keys)
  | seg :: rest, keys =>
    let keys' :=
      match findIdxO (fun parts => segment_line_matches parts (filtersFor filters seg))
          (segPartsOfType message seg) with
      | some i => keys ++ [(seg, i)]
      | none => keys
    if keys'.isEmpty then (false, []) else msfLoop message filters rest keys'

/-- message_satisfies_filters_exact_lines models the source function of
the same name (matched line ordinals kept as numbers rather than their
decimal strings; only membership and emptiness of the set matter). -/
def message_satisfies_filters_exact_lines (message : List Char) (filters : List FilterPred) :
    Bool × List (List Char × Nat) :=
  msfLoop message filters (segKeys filters) []

/-- deleteTok is the lower-case form of the DELETE sentinel. -/
def deleteTok : List Char :=
  ('d' : Char) :: ['e', 'l', 'e', 't', 'e']

/-- effVal models `'' if new_val.lower() == 'delete' else new_val`. -/
def effVal (v : List Char) : List Char :=
  if v.map Char.toLower == deleteTok then [] else v

/-- padTo c l models the while-loop that appends empty components until
the list has at least c entries. -/
def padTo (c : Nat) (l : List (List Char)) : List (List Char) :=
  l ++ List.replicate (c - l.length) []

/-- fop is the new value of field x under one edit: for a truthy
component index the field is split on '^', padded, the component is
replaced and the list rejoined; otherwise the whole field is replaced. -/
def fop (a : FAddr) (v : List Char) (x : List Char) : List Char :=
  if truthyCi a.ci then
    let c := a.ci.getD 0
    joinWith '^' ((padTo c (splitOnC '^' x)).set (c - 1) (effVal v))
  else effVal v

/-- applyEditVal models one iteration of the edit loop in
apply_bulk_edits_exact_lines: an out-of-range field index is skipped,
otherwise the addressed field is rewritten by fop. -/
def applyEditVal (parts : List (List Char)) (a : FAddr) (v : List Char) : List (List Char) :=
  if a.fi < parts.length then parts.set a.fi (fop a v (parts.getD a.fi []))
  else parts

/-- applyEdits folds applyEditVal over an edit list, in list order. -/
def applyEdits (parts : List (List Char)) (es : List (FAddr × List Char)) : List (List Char) :=
  es.foldl (fun p e => applyEditVal p e.1 e.2) parts

/-- groupStep models one iteration of the edit-group loop on one line:
restrict the group's filters and edits to the line's segment type (the
type is computed once, from the unedited line); skip the group when
either restriction is empty; otherwise, when the current parts satisfy
all restricted filters, apply all restricted edits and record that the
line was edited. -/
def groupStep (seg : List Char) (st : List (List Char) × Bool) (g : EditGroup) :
    List (List Char) × Bool :=
  let gf := (g.filters.filter (fun f => f.seg == seg)).map (fun f => (f.addr, f.val))
  let ge := (g.edits.filter (fun e => e.seg == seg)).map (fun e => (e.addr, e.val))
  if gf.isEmpty || ge.isEmpty then st
  else if segment_line_matches st.1 gf then (applyEdits st.1 ge, true)
  else st

/-- processLine models the per-line body of apply_bulk_edits_exact_lines:
blank lines pass through untouched; otherwise the line is split on '|',
every group is tried in order, and the (possibly edited) parts are
rejoined — the original parts when no group fired. -/
def processLine (groups : List EditGroup) (line : List Char) : List Char :=
  if (strip line).isEmpty then line
  else
    let parts := splitOnC '|' line
    let seg := parts.getD 0 []
    let res := groups.foldl (groupStep seg) (parts, false)
    if res.2 then joinWith '|' res.1 else joinWith '|' parts

/-- apply_bulk_edits_exact_lines models the source function of the same
name: per message, split into lines, process each line, and rejoin. -/
def apply_bulk_edits_exact_lines (messages : List (List Char)) (groups : List EditGroup) :
    List (List Char) :=
  messages.map (fun m => joinWith '\n' ((splitOnC '\n' m).map (processLine groups)))

/-- segTypeOf line is the text before the first '|' of the line. -/
def segTypeOf (line : List Char) : List Char :=
  (splitOnC '|' line).getD 0 []

/-- noApplicableMatch groups line holds when no group both applies to
the line's segment type (nonempty restricted filters and edits) and has
all its restricted filters satisfied by the unedited line. -/
def noApplicableMatch (groups : List EditGroup) (line : List Char) : Bool :=
  groups.all (fun g =>
    let parts := splitOnC '|' line
    let seg := parts.getD 0 []
    let gf := (g.filters.filter (fun f => f.seg == seg)).map (fun f => (f.addr, f.val))
    let ge := (g.edits.filter (fun e => e.seg == seg)).map (fun e => (e.addr, e.val))
    gf.isEmpty || ge.isEmpty || !(segment_line_matches parts gf))

/-- cpadset is the comp-list effect of one component edit: pad the list
of components to length c and replace component c (1-based). -/
def cpadset (c : Nat) (w : List Char) (L : List (List Char)) : List (List Char) :=
  (padTo c L).set (c - 1) w

/-- cFold folds the component-list effects of an edit list. -/
def cFold (ops : List (FAddr × List Char)) (M : List (List Char)) : List (List Char) :=
  ops.foldl (fun M e => cpadset (e.1.ci.getD 0) (effVal e.2) M) M

/-- fFold folds the field-value effects (fop) of an edit list over one
field string. -/
def fFold (ops : List (FAddr × List Char)) (x : List Char) : List Char :=
  ops.foldl (fun x e => fop e.1 e.2 x) x

/-- lastVal ops j is the value written by the last edit of ops that
addresses component position j (0-based), if any. -/
def lastVal : List (FAddr × List Char) → Nat → Option (List Char)
  | [], _ => none
  | e :: ops, j =>
    match lastVal ops j with
    | some w => some w
    | none => if e.1.ci.getD 0 - 1 = j then some (effVal e.2) else none

/-- maxC ops is the largest component index addressed by ops. -/
def maxC : List (FAddr × List Char) → Nat
  | [] => 0
  | e :: ops => max (e.1.ci.getD 0) (maxC ops)

/-- chunksE ms is the chunk list that re-splitting the '\n'-joined ms
produces after the leading chunk: every message but the last carries the
separating newline that re-splitting leaves on the chunk before the next
marker. -/
def chunksE : List (List Char) → List (List Char)
  | [] => []
  | [m] => [m]
  | m :: m2 :: ms => (m ++ ['\n']) :: chunksE (m2 :: ms)

/-- tailJoin tl is what follows the first message in a '\n'-join. -/
def tailJoin : List (List Char) → List Char
  | [] => []
  | t :: ts => '\n' :: joinWith '\n' (t :: ts)

theorem all_eq_false_of_mem {l : List α} {p : α → Bool} {x : α} (hx : x ∈ l)
    (hp : p x = false) : l.all p = false := by
  cases h : l.all p with
  | false => rfl
  | true =>
    rw [List.all_eq_true] at h
    rw [h x hx] at hp
    exact absurd hp (by simp)

theorem startsW_crlf (pat : List Char) (hr : ('\r' : Char) ∉ pat) (hn : ('\n' : Char) ∉ pat) :
    ∀ l, startsW pat (crlf l) = startsW pat l := by
  induction pat with
  | nil => intro l; rfl
  | cons p ps ih =>
    intro l
    cases l with
    | nil => rfl
    | cons c cs =>
      have hp : p ≠ '\r' := fun h => hr (h ▸ List.mem_cons_self p ps)
      have hpn : p ≠ '\n' := fun h => hn (h ▸ List.mem_cons_self p ps)
      have ihr : ('\r' : Char) ∉ ps := fun h => hr (List.mem_cons_of_mem p h)
      have ihn : ('\n' : Char) ∉ ps := fun h => hn (List.mem_cons_of_mem p h)
      show startsW (p :: ps) (crlf (c :: cs)) = startsW (p :: ps) (c :: cs)
      by_cases hc : c = '\r'
      · subst hc
        simp [crlf, startsW, hp, hpn]
      · simp only [crlf, List.map_cons, if_neg hc, startsW]
        have h3 := ih ihr ihn cs
        simp only [crlf] at h3
        rw [h3]

theorem containsSeq_crlf (l : List Char) :
    containsSeq marker (crlf l) = containsSeq marker l := by
  induction l with
  | nil => rfl
  | cons c cs ih =>
    have hm : startsW marker (crlf (c :: cs)) = startsW marker (c :: cs) :=
      startsW_crlf marker (by decide) (by decide) (c :: cs)
    have hcrl : crlf (c :: cs) = (if c = '\r' then '\n' else c) :: crlf cs := by
      simp [crlf]
    rw [hcrl] at hm
    calc containsSeq marker (crlf (c :: cs))
        = containsSeq marker ((if c = '\r' then '\n' else c) :: crlf cs) := by rw [hcrl]
      _ = (startsW marker ((if c = '\r' then '\n' else c) :: crlf cs)
            || containsSeq marker (crlf cs)) := rfl
      _ = (startsW marker (c :: cs) || containsSeq marker cs) := by rw [hm, ih]
      _ = containsSeq marker (c :: cs) := rfl

theorem msplitAux_no_marker :
    ∀ (t cur : List Char), containsSeq marker t = false →
      msplitAux cur t = [cur.reverse ++ t] := by
  intro t
  induction t with
  | nil => intro cur _; simp [msplitAux]
  | cons c rest ih =>
    intro cur h
    simp only [containsSeq, Bool.or_eq_false_iff] at h
    simp only [msplitAux, h.1, if_false]
    rw [ih (c :: cur) h.2]
    simp

/-- C3 counterexample: the blob "hello" contains no MSH| marker, yet
split_hl7_messages returns a nonempty list (one message), not zero
messages as the claim states. -/
theorem c3_counterexample :
    containsSeq marker (str ("hello")) = false ∧
      split_hl7_messages (str ("hello")) ≠ [] := by decide

/-- C3 (amended): for a blob with no occurrence of MSH|,
split_hl7_messages raises no error and returns zero messages exactly
when the blob is whitespace-only; otherwise it returns one message, the
trimmed CR-normalized blob. -/
theorem c3_amended_no_marker_split (raw : List Char)
    (h : containsSeq marker raw = false) :
    split_hl7_messages raw =
      if (strip (crlf raw)).isEmpty then [] else [strip (crlf raw)] := by
  have hn : containsSeq marker (crlf raw) = false := by
    rw [containsSeq_crlf]; exact h
  unfold split_hl7_messages
  rw [msplitAux_no_marker (crlf raw) [] hn]
  simp only [List.reverse_nil, List.nil_append, List.map_cons, List.map_nil]
  by_cases he : (strip (crlf raw)).isEmpty
  · simp [List.filter, he]
  · simp only [List.filter, he]
    simp [he]

theorem c3_amended_witness :
    containsSeq marker (str ("  hi  ")) = false ∧
      split_hl7_messages (str ("  hi  ")) =
        (if (strip (crlf (str ("  hi  ")))).isEmpty then []
          else [strip (crlf (str ("  hi  ")))]) :=
  ⟨by decide, c3_amended_no_marker_split (str ("  hi  ")) (by decide)⟩

/-- C1: the message-level filter check does not fail a message when a
referenced segment type has no matching line, because it tests one
shared matched set instead of a per-type result.  On the message
AAA|1 with lines of type BBB never matching (second conjunct), and even
with type CCC wholly absent (fourth conjunct), it still returns true. -/
theorem c1_filter_engine_accepts_missing_segment :
    (message_satisfies_filters_exact_lines (str ("AAA|1\nBBB|2"))
        [⟨str ("AAA"), ⟨1, none⟩, str ("1")⟩, ⟨str ("BBB"), ⟨1, none⟩, str ("9")⟩]).1 = true
    ∧ (segPartsOfType (str ("AAA|1\nBBB|2")) (str ("BBB"))).all
        (fun parts => !(segment_line_matches parts
          (filtersFor [⟨str ("AAA"), ⟨1, none⟩, str ("1")⟩, ⟨str ("BBB"), ⟨1, none⟩, str ("9")⟩]
            (str ("BBB"))))) = true
    ∧ (message_satisfies_filters_exact_lines (str ("AAA|1"))
        [⟨str ("AAA"), ⟨1, none⟩, str ("1")⟩, ⟨str ("CCC"), ⟨1, none⟩, str ("1")⟩]).1 = true
    ∧ segPartsOfType (str ("AAA|1")) (str ("CCC")) = [] := by decide

/-- C2: filter matching is not monotone: the message AAA|1 is rejected
by the filter list [(BBB,1,"2")], but adding the filter (AAA,1,"1") at
the front makes it accepted, growing the matched set. -/
theorem c2_adding_filter_grows_matches :
    (message_satisfies_filters_exact_lines (str ("AAA|1"))
        [⟨str ("BBB"), ⟨1, none⟩, str ("2")⟩]).1 = false
    ∧ (message_satisfies_filters_exact_lines (str ("AAA|1"))
        [⟨str ("AAA"), ⟨1, none⟩, str ("1")⟩, ⟨str ("BBB"), ⟨1, none⟩, str ("2")⟩]).1 = true := by
  decide

/-- C4 counterexample: for the corpus MSH|a\n\nMSH|b (no CR at all, so
CR normalization is the identity), splitting and rejoining with the
line separator loses the blank line between the messages. -/
theorem c4_counterexample :
    joinWith '\n' (split_hl7_messages (str ("MSH|a\n\nMSH|b"))) ≠ crlf (str ("MSH|a\n\nMSH|b"))
    ∧ joinWith '\n' (split_hl7_messages (str ("MSH|a\n\nMSH|b"))) ≠ str ("MSH|a\n\nMSH|b") := by
  decide

/-- C5 counterexample: one EditGroup whose component edit writes the
concrete literal value A^B (which contains the component separator) is
not idempotent: the first pass yields S|a|A^B^y, the second S|a|A^B^B^y. -/
theorem c5_counterexample :
    apply_bulk_edits_exact_lines
        (apply_bulk_edits_exact_lines [str ("S|a|x^y")]
          [⟨[⟨str ("S"), ⟨1, none⟩, str ("a")⟩], [⟨str ("S"), ⟨2, some 1⟩, str ("A^B")⟩]⟩])
        [⟨[⟨str ("S"), ⟨1, none⟩, str ("a")⟩], [⟨str ("S"), ⟨2, some 1⟩, str ("A^B")⟩]⟩]
      ≠ apply_bulk_edits_exact_lines [str ("S|a|x^y")]
          [⟨[⟨str ("S"), ⟨1, none⟩, str ("a")⟩], [⟨str ("S"), ⟨2, some 1⟩, str ("A^B")⟩]⟩] := by
  decide

/-- C6: segment_line_matches is total and returns false (never an
error) for any filter whose field index is at least the number of
'|'-parts of the line, and likewise for a component index beyond the
components present in the addressed field. -/
theorem c6_out_of_range_safe :
    (∀ (parts : List (List Char)) (fs : List (FAddr × List Char)) (a : FAddr) (e : List Char),
      (a, e) ∈ fs → parts.length ≤ a.fi → segment_line_matches parts fs = false)
    ∧ ∀ (parts : List (List Char)) (fs : List (FAddr × List Char)) (a : FAddr)
        (e : List Char) (c : Nat),
      (a, e) ∈ fs → a.ci = some c → c ≠ 0 →
      (splitOnC '^' (parts.getD a.fi [])).length < c →
      segment_line_matches parts fs = false := by
  constructor
  · intro parts fs a e hmem hlen
    refine all_eq_false_of_mem hmem ?_
    simp only [predHolds]
    rw [if_neg (by omega)]
  · intro parts fs a e c hmem hci hc0 hcomp
    refine all_eq_false_of_mem hmem ?_
    simp only [predHolds]
    by_cases hfi : a.fi < parts.length
    · rw [if_pos hfi]
      have ht : truthyCi a.ci = true := by
        rw [hci]; simp [truthyCi, hc0]
      rw [if_pos ht]
      have : a.ci.getD 0 = c := by rw [hci]; rfl
      rw [this, if_pos hcomp]
    · rw [if_neg hfi]

theorem c6_witness :
    segment_line_matches (splitOnC '|' (str ("PID|1||999^^^MRN||SMITH^JANE")))
      [(⟨9, none⟩, str ("x"))] = false ∧
    segment_line_matches (splitOnC '|' (str ("PID|1||999^^^MRN||SMITH^JANE")))
      [(⟨5, some 3⟩, str ("x"))] = false :=
  ⟨c6_out_of_range_safe.1 _ _ ⟨9, none⟩ (str ("x")) (by decide) (by decide),
   c6_out_of_range_safe.2 _ _ ⟨5, some 3⟩ (str ("x")) 3 (by decide) rfl (by decide) (by decide)⟩

/-- C7: an edit whose new value lowercases to the token delete writes
the empty string rather than the token — applying it coincides with
applying an edit whose new value is literally empty — and the spec's
literal example holds: (PID,(5,2),DELETE) under a satisfied filter on
PID field 1 turns PID|1||999^^^MRN||SMITH^JANE into
PID|1||999^^^MRN||SMITH^. -/
theorem c7_delete_token_clears :
    (∀ (parts : List (List Char)) (a : FAddr) (v : List Char),
      v.map Char.toLower = deleteTok → applyEditVal parts a v = applyEditVal parts a [])
    ∧ apply_bulk_edits_exact_lines [str ("PID|1||999^^^MRN||SMITH^JANE")]
        [⟨[⟨str ("PID"), ⟨1, none⟩, str ("1")⟩], [⟨str ("PID"), ⟨5, some 2⟩, str ("DELETE")⟩]⟩] =
      [str ("PID|1||999^^^MRN||SMITH^")] := by
  constructor
  · intro parts a v hv
    have h1 : effVal v = [] := by simp [effVal, hv]
    have h2 : effVal [] = [] := by decide
    simp only [applyEditVal, fop, h1, h2]
  · decide

theorem splitOnC_ne_nil (sep : Char) (l : List Char) : splitOnC sep l ≠ [] := by
  cases l with
  | nil => simp [splitOnC]
  | cons c rest =>
    simp only [splitOnC]
    by_cases h : c = sep
    · simp [h]
    · rw [if_neg h]
      cases splitOnC sep rest <;> simp [consHead]

theorem consHead_join (sep c : Char) (L : List (List Char)) (h : L ≠ []) :
    joinWith sep (consHead c L) = c :: joinWith sep L := by
  cases L with
  | nil => exact absurd rfl h
  | cons x t =>
    cases t with
    | nil => rfl
    | cons y t2 => rfl

theorem joinWith_splitOnC (sep : Char) (l : List Char) :
    joinWith sep (splitOnC sep l) = l := by
  induction l with
  | nil => rfl
  | cons c rest ih =>
    simp only [splitOnC]
    by_cases h : c = sep
    · rw [if_pos h]
      have hne := splitOnC_ne_nil sep rest
      cases hs : splitOnC sep rest with
      | nil => exact absurd hs hne
      | cons x t =>
        rw [hs] at ih
        subst h
        simp [joinWith, ih]
    · rw [if_neg h, consHead_join sep c _ (splitOnC_ne_nil sep rest), ih]

theorem mem_splitOnC_not_sep (sep : Char) (l : List Char) :
    ∀ x ∈ splitOnC sep l, sep ∉ x := by
  induction l with
  | nil =>
    intro x hx
    simp only [splitOnC, List.mem_singleton] at hx
    subst hx; simp
  | cons c rest ih =>
    intro x hx
    simp only [splitOnC] at hx
    by_cases h : c = sep
    · rw [if_pos h, List.mem_cons] at hx
      rcases hx with hx | hx
      · subst hx; simp
      · exact ih x hx
    · rw [if_neg h] at hx
      have hne := splitOnC_ne_nil sep rest
      cases hs : splitOnC sep rest with
      | nil => exact absurd hs hne
      | cons y t =>
        rw [hs] at hx ih
        simp only [consHead, List.mem_cons] at hx
        rcases hx with hx | hx
        · subst hx
          intro hmem
          rcases List.mem_cons.mp hmem with h1 | h1
          · exact h h1.symm
          · exact ih y (List.mem_cons_self y t) h1
        · exact ih x (List.mem_cons_of_mem y hx)

theorem splitOnC_no_sep (sep : Char) (x : List Char) (h : sep ∉ x) :
    splitOnC sep x = [x] := by
  induction x with
  | nil => rfl
  | cons c rest ih =>
    have hc : ¬c = sep := fun he => h (he ▸ List.mem_cons_self c rest)
    have hr : sep ∉ rest := fun hm => h (List.mem_cons_of_mem c hm)
    simp only [splitOnC, if_neg hc, ih hr, consHead]

theorem splitOnC_append_sep (sep : Char) (x u : List Char) (h : sep ∉ x) :
    splitOnC sep (x ++ sep :: u) = x :: splitOnC sep u := by
  induction x with
  | nil => simp [splitOnC]
  | cons c rest ih =>
    have hc : ¬c = sep := fun he => h (he ▸ List.mem_cons_self c rest)
    have hr : sep ∉ rest := fun hm => h (List.mem_cons_of_mem c hm)
    show (if c = sep then [] :: splitOnC sep (rest ++ sep :: u)
        else consHead c (splitOnC sep (rest ++ sep :: u))) = (c :: rest) :: splitOnC sep u
    rw [if_neg hc, ih hr]
    rfl

theorem splitOnC_joinWith (sep : Char) (L : List (List Char)) (hne : L ≠ [])
    (h : ∀ x ∈ L, sep ∉ x) : splitOnC sep (joinWith sep L) = L := by
  induction L with
  | nil => exact absurd rfl hne
  | cons x t ih =>
    cases t with
    | nil =>
      show splitOnC sep x = [x]
      exact splitOnC_no_sep sep x (h x (List.mem_cons_self x []))
    | cons y t2 =>
      show splitOnC sep (x ++ sep :: joinWith sep (y :: t2)) = x :: y :: t2
      rw [splitOnC_append_sep sep x _ (h x (List.mem_cons_self x _))]
      rw [ih (by simp) (fun z hz => h z (List.mem_cons_of_mem x hz))]

theorem headSplitJoin (sep : Char) (L : List (List Char)) (hne : L ≠ [])
    (h : sep ∉ L.getD 0 []) :
    (splitOnC sep (joinWith sep L)).getD 0 [] = L.getD 0 [] := by
  cases L with
  | nil => exact absurd rfl hne
  | cons x t =>
    simp only [List.getD] at h ⊢
    cases t with
    | nil =>
      show (splitOnC sep x).getD 0 [] = x
      rw [splitOnC_no_sep sep x h]
      rfl
    | cons y t2 =>
      show (splitOnC sep (x ++ sep :: joinWith sep (y :: t2))).getD 0 [] = x
      rw [splitOnC_append_sep sep x _ h]
      rfl

theorem map_getD_lt (f : List Char → List Char) (l : List (List Char)) :
    ∀ i, i < l.length → (l.map f).getD i [] = f (l.getD i []) := by
  induction l with
  | nil => intro i hi; simp at hi
  | cons x t ih =>
    intro i hi
    cases i with
    | zero => rfl
    | succ j =>
      simp only [List.map_cons, List.getD_cons_succ]
      exact ih j (by simpa using hi)

theorem groupStep_noop (seg : List Char) (parts : List (List Char)) (g : EditGroup)
    (h : ((g.filters.filter (fun f => f.seg == seg)).map (fun f => (f.addr, f.val))).isEmpty = true
      ∨ ((g.edits.filter (fun e => e.seg == seg)).map (fun e => (e.addr, e.val))).isEmpty = true
      ∨ segment_line_matches parts
          ((g.filters.filter (fun f => f.seg == seg)).map (fun f => (f.addr, f.val))) = false) :
    groupStep seg (parts, false) g = (parts, false) := by
  simp only [groupStep]
  by_cases he : ((g.filters.filter (fun f => f.seg == seg)).map
      (fun f => (f.addr, f.val))).isEmpty
    || ((g.edits.filter (fun e => e.seg == seg)).map (fun e => (e.addr, e.val))).isEmpty
  · rw [if_pos he]
  · rw [if_neg he]
    have hm : segment_line_matches parts
        ((g.filters.filter (fun f => f.seg == seg)).map (fun f => (f.addr, f.val))) = false := by
      rcases h with h1 | h2 | h3
      · exact absurd (by simp [h1]) he
      · exact absurd (by simp [h2]) he
      · exact h3
    rw [hm]
    simp

theorem foldl_groupStep_noop (seg : List Char) (parts : List (List Char))
    (groups : List EditGroup)
    (h : ∀ g ∈ groups,
      ((g.filters.filter (fun f => f.seg == seg)).map (fun f => (f.addr, f.val))).isEmpty = true
      ∨ ((g.edits.filter (fun e => e.seg == seg)).map (fun e => (e.addr, e.val))).isEmpty = true
      ∨ segment_line_matches parts
          ((g.filters.filter (fun f => f.seg == seg)).map (fun f => (f.addr, f.val))) = false) :
    groups.foldl (groupStep seg) (parts, false) = (parts, false) := by
  induction groups with
  | nil => rfl
  | cons g gs ih =>
    simp only [List.foldl_cons]
    rw [groupStep_noop seg parts g (h g (List.mem_cons_self g gs))]
    exact ih (fun g2 hg2 => h g2 (List.mem_cons_of_mem g hg2))

/-- C8: the output of apply_bulk_edits_exact_lines has exactly one
message per input message, the i-th output message is the i-th input
message with each of its lines processed in place and in order, and a
line for which no group both applies to its segment type and has all
its restricted filters satisfied is returned byte-identical. -/
theorem c8_noop_frame (msgs : List (List Char)) (groups : List EditGroup) :
    (apply_bulk_edits_exact_lines msgs groups).length = msgs.length
    ∧ (∀ i, i < msgs.length →
        (apply_bulk_edits_exact_lines msgs groups).getD i [] =
          joinWith '\n' ((splitOnC '\n' (msgs.getD i [])).map (processLine groups)))
    ∧ ∀ line, noApplicableMatch groups line = true → processLine groups line = line := by
  refine ⟨by simp [apply_bulk_edits_exact_lines], fun i hi => ?_, fun line hline => ?_⟩
  · exact map_getD_lt _ msgs i hi
  · simp only [noApplicableMatch, List.all_eq_true] at hline
    simp only [processLine]
    by_cases hblank : (strip line).isEmpty
    · rw [if_pos hblank]
    · rw [if_neg hblank]
      rw [foldl_groupStep_noop _ _ groups (fun g hg => by
        have := hline g hg
        simp only [Bool.or_eq_true, Bool.not_eq_true'] at this
        tauto)]
      simp only
      exact joinWith_splitOnC '|' line

theorem c8_witness :
    (apply_bulk_edits_exact_lines [str ("PID|1")]
        [⟨[⟨str ("PID"), ⟨1, none⟩, str ("9")⟩], [⟨str ("PID"), ⟨1, none⟩, str ("X")⟩]⟩]).getD 0 []
      = joinWith '\n' ((splitOnC '\n' ([str ("PID|1")].getD 0 [])).map
          (processLine [⟨[⟨str ("PID"), ⟨1, none⟩, str ("9")⟩],
            [⟨str ("PID"), ⟨1, none⟩, str ("X")⟩]⟩]))
    ∧ processLine [⟨[⟨str ("PID"), ⟨1, none⟩, str ("9")⟩],
        [⟨str ("PID"), ⟨1, none⟩, str ("X")⟩]⟩] (str ("PID|1")) = str ("PID|1") :=
  ⟨(c8_noop_frame [str ("PID|1")] _).2.1 0 (by decide),
   (c8_noop_frame [str ("PID|1")] _).2.2 (str ("PID|1")) (by decide)⟩

theorem set_succ_getD_zero (l : List (List Char)) (i : Nat) (a : List Char) :
    (l.set (i + 1) a).getD 0 [] = l.getD 0 [] := by
  cases l <;> simp [List.set]

theorem applyEditVal_getD_zero (parts : List (List Char)) (a : FAddr) (v : List Char)
    (h : 1 ≤ a.fi) : (applyEditVal parts a v).getD 0 [] = parts.getD 0 [] := by
  simp only [applyEditVal]
  by_cases hfi : a.fi < parts.length
  · rw [if_pos hfi]
    obtain ⟨j, hj⟩ : ∃ j, a.fi = j + 1 := ⟨a.fi - 1, by omega⟩
    rw [hj]
    exact set_succ_getD_zero parts j _
  · rw [if_neg hfi]

theorem applyEditVal_length (parts : List (List Char)) (a : FAddr) (v : List Char) :
    (applyEditVal parts a v).length = parts.length := by
  simp only [applyEditVal]
  by_cases hfi : a.fi < parts.length
  · rw [if_pos hfi]; simp
  · rw [if_neg hfi]

theorem applyEdits_getD_zero (es : List (FAddr × List Char)) :
    ∀ (parts : List (List Char)), (∀ e ∈ es, 1 ≤ e.1.fi) →
      (applyEdits parts es).getD 0 [] = parts.getD 0 [] := by
  induction es with
  | nil => intro parts _; rfl
  | cons e t ih =>
    intro parts h
    show (applyEdits (applyEditVal parts e.1 e.2) t).getD 0 [] = parts.getD 0 []
    rw [ih _ (fun x hx => h x (List.mem_cons_of_mem e hx))]
    exact applyEditVal_getD_zero parts e.1 e.2 (h e (List.mem_cons_self e t))

theorem applyEdits_length (es : List (FAddr × List Char)) :
    ∀ parts : List (List Char), (applyEdits parts es).length = parts.length := by
  induction es with
  | nil => intro parts; rfl
  | cons e t ih =>
    intro parts
    show (applyEdits (applyEditVal parts e.1 e.2) t).length = parts.length
    rw [ih, applyEditVal_length]

theorem foldl_groupStep_getD_zero (seg : List Char) :
    ∀ groups : List EditGroup, (∀ g ∈ groups, ∀ e ∈ g.edits, 1 ≤ e.addr.fi) →
    ∀ st : List (List Char) × Bool,
      ((groups.foldl (groupStep seg) st).1.getD 0 [], (groups.foldl (groupStep seg) st).1.length)
        = (st.1.getD 0 [], st.1.length) := by
  intro groups
  induction groups with
  | nil => intro _ st; rfl
  | cons g gs ih =>
    intro hE st
    simp only [List.foldl_cons]
    rw [ih (fun g2 hg2 => hE g2 (List.mem_cons_of_mem g hg2)) (groupStep seg st g)]
    simp only [groupStep]
    by_cases h1 : ((g.filters.filter (fun f => f.seg == seg)).map
        (fun f => (f.addr, f.val))).isEmpty
      || ((g.edits.filter (fun e => e.seg == seg)).map (fun e => (e.addr, e.val))).isEmpty
    · rw [if_pos h1]
    · rw [if_neg h1]
      by_cases h2 : segment_line_matches st.1
          ((g.filters.filter (fun f => f.seg == seg)).map (fun f => (f.addr, f.val)))
      · rw [if_pos h2]
        have hes : ∀ e ∈ (g.edits.filter (fun e => e.seg == seg)).map
            (fun e => (e.addr, e.val)), 1 ≤ e.1.fi := by
          intro e he
          rcases List.mem_map.mp he with ⟨e0, he0, heq⟩
          have := hE g (List.mem_cons_self g gs) e0 (List.mem_filter.mp he0).1
          rw [← heq]
          exact this
        simp only
        rw [applyEdits_getD_zero _ st.1 hes, applyEdits_length]
      · rw [if_neg h2]

/-- C9: when every filter and every edit of every group addresses a
field index of at least 1, processing a line never changes the text
before its first '|' — the segment type of every processed line equals
the segment type of the input line — and apply_bulk_edits_exact_lines
is exactly the per-line map of processLine over each message. -/
theorem c9_segment_type_preserved (groups : List EditGroup)
    (hE : ∀ g ∈ groups, ∀ e ∈ g.edits, 1 ≤ e.addr.fi)
    (_hF : ∀ g ∈ groups, ∀ f ∈ g.filters, 1 ≤ f.addr.fi) :
    (∀ msgs, apply_bulk_edits_exact_lines msgs groups =
      msgs.map (fun m => joinWith '\n' ((splitOnC '\n' m).map (processLine groups))))
    ∧ ∀ line, segTypeOf (processLine groups line) = segTypeOf line := by
  refine ⟨fun msgs => rfl, fun line => ?_⟩
  simp only [processLine]
  by_cases hblank : (strip line).isEmpty
  · rw [if_pos hblank]
  · rw [if_neg hblank]
    have hsplit := splitOnC_ne_nil '|' line
    have hhead : ('|' : Char) ∉ (splitOnC '|' line).getD 0 [] := by
      apply mem_splitOnC_not_sep '|' line
      cases hs : splitOnC '|' line with
      | nil => exact absurd hs hsplit
      | cons x t => exact List.mem_cons_self x t
    have hfold := foldl_groupStep_getD_zero ((splitOnC '|' line).getD 0 []) groups hE
      (splitOnC '|' line, false)
    have hg0 : (groups.foldl (groupStep ((splitOnC '|' line).getD 0 []))
        (splitOnC '|' line, false)).1.getD 0 [] = (splitOnC '|' line).getD 0 [] :=
      congrArg Prod.fst hfold
    have hglen : (groups.foldl (groupStep ((splitOnC '|' line).getD 0 []))
        (splitOnC '|' line, false)).1.length = (splitOnC '|' line).length :=
      congrArg Prod.snd hfold
    by_cases hed : (groups.foldl (groupStep ((splitOnC '|' line).getD 0 []))
        (splitOnC '|' line, false)).2
    · rw [if_pos hed]
      have hne : (groups.foldl (groupStep ((splitOnC '|' line).getD 0 []))
          (splitOnC '|' line, false)).1 ≠ [] := by
        intro hnil
        rw [hnil] at hglen
        exact hsplit (List.length_eq_zero.mp hglen.symm)
      show (splitOnC '|' (joinWith '|' _)).getD 0 [] = segTypeOf line
      rw [headSplitJoin '|' _ hne (by rw [hg0]; exact hhead), hg0]
      rfl
    · rw [if_neg hed]
      show (splitOnC '|' (joinWith '|' (splitOnC '|' line))).getD 0 [] = segTypeOf line
      rw [headSplitJoin '|' (splitOnC '|' line) hsplit hhead]
      rfl

theorem c9_witness :
    segTypeOf (processLine [⟨[⟨str ("S"), ⟨1, none⟩, str ("a")⟩],
        [⟨str ("S"), ⟨1, none⟩, str ("Z")⟩]⟩] (str ("S|a|b"))) = segTypeOf (str ("S|a|b")) :=
  (c9_segment_type_preserved [⟨[⟨str ("S"), ⟨1, none⟩, str ("a")⟩],
      [⟨str ("S"), ⟨1, none⟩, str ("Z")⟩]⟩] (by decide) (by decide)).2 (str ("S|a|b"))

theorem startsW_append (pat t : List Char) : startsW pat (pat ++ t) = true := by
  induction pat with
  | nil => rfl
  | cons p ps ih => simp [startsW, ih]

theorem startsW_destruct (pat : List Char) :
    ∀ l, startsW pat l = true → ∃ t, l = pat ++ t := by
  induction pat with
  | nil => intro l _; exact ⟨l, rfl⟩
  | cons p ps ih =>
    intro l h
    cases l with
    | nil => exact absurd h (by simp [startsW])
    | cons c cs =>
      simp only [startsW, Bool.and_eq_true, decide_eq_true_eq] at h
      obtain ⟨t, ht⟩ := ih cs h.2
      exact ⟨t, by rw [h.1, ht]; rfl⟩

theorem startsW_marker_ne (c : Char) (x : List Char) (h : c ≠ 'M') :
    startsW marker (c :: x) = false := by
  show (decide (('M' : Char) = c) && _) = false
  rw [decide_eq_false (fun he => h he.symm)]
  rfl

theorem breakMarker_append (s : List Char) :
    (breakMarker s).1 ++ (breakMarker s).2 = s := by
  induction s with
  | nil => rfl
  | cons c rest ih =>
    simp only [breakMarker]
    by_cases h : startsW marker (c :: rest)
    · rw [if_pos h]
      rfl
    · rw [if_neg h]
      show c :: ((breakMarker rest).1 ++ (breakMarker rest).2) = c :: rest
      rw [ih]

theorem breakMarker_snd_len (s : List Char) :
    (breakMarker s).2.length ≤ s.length := by
  have h := congrArg List.length (breakMarker_append s)
  rw [List.length_append] at h
  omega

theorem breakMarker_snd (s : List Char) :
    (breakMarker s).2 = [] ∨ startsW marker (breakMarker s).2 = true := by
  induction s with
  | nil => exact Or.inl rfl
  | cons c rest ih =>
    simp only [breakMarker]
    by_cases h : startsW marker (c :: rest)
    · rw [if_pos h]; exact Or.inr h
    · rw [if_neg h]; exact ih

theorem breakMarker_fst_noOcc (s : List Char) :
    containsSeq marker (breakMarker s).1 = false := by
  induction s with
  | nil => rfl
  | cons c rest ih =>
    simp only [breakMarker]
    by_cases h : startsW marker (c :: rest)
    · rw [if_pos h]; rfl
    · rw [if_neg h]
      simp only [containsSeq, Bool.or_eq_false_iff]
      refine ⟨?_, ih⟩
      cases hW : startsW marker ((c :: (breakMarker rest).1)) with
      | false => rfl
      | true =>
        obtain ⟨t, ht⟩ := startsW_destruct marker _ hW
        have happ := breakMarker_append rest
        have hkey : c :: rest = marker ++ (t ++ (breakMarker rest).2) := by
          calc c :: rest
              = c :: ((breakMarker rest).1 ++ (breakMarker rest).2) := by rw [happ]
            _ = (c :: (breakMarker rest).1) ++ (breakMarker rest).2 := by
                rw [List.cons_append]
            _ = (marker ++ t) ++ (breakMarker rest).2 := by rw [ht]
            _ = marker ++ (t ++ (breakMarker rest).2) := by rw [List.append_assoc]
        have : startsW marker (c :: rest) = true := by
          rw [hkey]
          exact startsW_append marker _
        exact absurd this h

theorem breakMarker_no_marker (s : List Char) (h : containsSeq marker s = false) :
    breakMarker s = (s, []) := by
  induction s with
  | nil => rfl
  | cons c rest ih =>
    simp only [containsSeq, Bool.or_eq_false_iff] at h
    have hW : ¬startsW marker (c :: rest) = true := by
      rw [h.1]; exact Bool.false_ne_true
    simp only [breakMarker]
    rw [if_neg hW, ih h.2]

theorem breakMarker_shp (r : List Char) :
    breakMarker ('S' :: 'H' :: '|' :: r) =
      ('S' :: 'H' :: '|' :: (breakMarker r).1, (breakMarker r).2) := by
  have h1 : ¬startsW marker ('S' :: 'H' :: '|' :: r) = true := by
    rw [startsW_marker_ne 'S' _ (by decide)]; exact Bool.false_ne_true
  have h2 : ¬startsW marker ('H' :: '|' :: r) = true := by
    rw [startsW_marker_ne 'H' _ (by decide)]; exact Bool.false_ne_true
  have h3 : ¬startsW marker ('|' :: r) = true := by
    rw [startsW_marker_ne '|' _ (by decide)]; exact Bool.false_ne_true
  simp only [breakMarker]
  rw [if_neg h1, if_neg h2, if_neg h3]

theorem msplitAux_ne_nil : ∀ (s cur : List Char), msplitAux cur s ≠ [] := by
  intro s
  induction s with
  | nil => intro cur; simp [msplitAux]
  | cons c rest ih =>
    intro cur
    simp only [msplitAux]
    by_cases h : startsW marker (c :: rest)
    · rw [if_pos h]; simp
    · rw [if_neg h]; exact ih (c :: cur)

theorem msplitAux_eq_nil :
    ∀ (s cur a : List Char), breakMarker s = (a, []) →
      msplitAux cur s = [cur.reverse ++ a] := by
  intro s
  induction s with
  | nil =>
    intro cur a h
    have ha : ([] : List Char) = a := congrArg Prod.fst h
    rw [← ha]
    simp [msplitAux]
  | cons c rest ih =>
    intro cur a h
    simp only [breakMarker] at h
    by_cases hW : startsW marker (c :: rest)
    · rw [if_pos hW] at h
      have h2 : c :: rest = [] := congrArg Prod.snd h
      exact absurd h2 (by simp)
    · rw [if_neg hW] at h
      have h1 : c :: (breakMarker rest).1 = a := congrArg Prod.fst h
      have h2 : (breakMarker rest).2 = [] := congrArg Prod.snd h
      simp only [msplitAux, if_neg hW]
      rw [ih (c :: cur) (breakMarker rest).1 (by rw [← h2])]
      rw [← h1]
      simp

theorem msplitAux_eq_cons :
    ∀ (s cur a : List Char) (d b' : List Char) (hd : Char), d = hd :: b' →
      breakMarker s = (a, d) →
      msplitAux cur s = (cur.reverse ++ a) :: msplitAux [hd] b' := by
  intro s
  induction s with
  | nil =>
    intro cur a d b' hd hcons h
    have h2 : ([] : List Char) = d := congrArg Prod.snd h
    rw [hcons] at h2
    exact absurd h2 (by simp)
  | cons c rest ih =>
    intro cur a d b' hd hcons h
    simp only [breakMarker] at h
    by_cases hW : startsW marker (c :: rest)
    · rw [if_pos hW] at h
      have h1 : ([] : List Char) = a := congrArg Prod.fst h
      have h2 : c :: rest = d := congrArg Prod.snd h
      rw [hcons] at h2
      injection h2 with hcd hrest
      simp only [msplitAux, if_pos hW]
      rw [← h1, hcd, hrest]
      simp
    · rw [if_neg hW] at h
      have h1 : c :: (breakMarker rest).1 = a := congrArg Prod.fst h
      have h2 : (breakMarker rest).2 = d := congrArg Prod.snd h
      simp only [msplitAux, if_neg hW]
      rw [ih (c :: cur) (breakMarker rest).1 d b' hd hcons (by rw [← h2])]
      rw [← h1]
      simp

theorem dropWhile_idem (p : Char → Bool) (l : List Char) :
    (l.dropWhile p).dropWhile p = l.dropWhile p := by
  induction l with
  | nil => rfl
  | cons c t ih =>
    by_cases h : p c
    · rw [List.dropWhile_cons_of_pos h, ih]
    · rw [List.dropWhile_cons_of_neg h, List.dropWhile_cons_of_neg h]

theorem dropWhile_append_pos (p : Char → Bool) (u v : List Char)
    (h : u.dropWhile p ≠ []) : (u ++ v).dropWhile p = u.dropWhile p ++ v := by
  induction u with
  | nil => exact absurd rfl h
  | cons c t ih =>
    by_cases hc : p c
    · rw [List.dropWhile_cons_of_pos hc] at h ⊢
      rw [List.cons_append, List.dropWhile_cons_of_pos hc]
      exact ih h
    · rw [List.dropWhile_cons_of_neg hc]
      rw [List.cons_append, List.dropWhile_cons_of_neg hc]

theorem dropWhile_append_nil (p : Char → Bool) (u v : List Char)
    (h : u.dropWhile p = []) : (u ++ v).dropWhile p = v.dropWhile p := by
  induction u with
  | nil => rfl
  | cons c t ih =>
    by_cases hc : p c
    · rw [List.dropWhile_cons_of_pos hc] at h
      rw [List.cons_append, List.dropWhile_cons_of_pos hc]
      exact ih h
    · rw [List.dropWhile_cons_of_neg hc] at h
      exact absurd h (by simp)

theorem length_dropWhile_le_own (p : Char → Bool) (l : List Char) :
    (l.dropWhile p).length ≤ l.length := by
  induction l with
  | nil => exact le_refl 0
  | cons c t ih =>
    by_cases hc : p c
    · rw [List.dropWhile_cons_of_pos hc]
      exact le_trans ih (by simp)
    · rw [List.dropWhile_cons_of_neg hc]

theorem lstrip_head_not_spc (y : List Char) (h : lstrip y = y) :
    ∀ c t, y = c :: t → isSpc c = false := by
  intro c t hy
  subst hy
  cases hp : isSpc c with
  | false => rfl
  | true =>
    unfold lstrip at h
    rw [List.dropWhile_cons_of_pos hp] at h
    have hlen := congrArg List.length h
    have hle := length_dropWhile_le_own isSpc t
    simp only [List.length_cons] at hlen
    omega

theorem lstrip_rstrip (y : List Char) (h : lstrip y = y) :
    lstrip (rstrip y) = rstrip y := by
  cases y with
  | nil => rfl
  | cons c t =>
    have hc : isSpc c = false := lstrip_head_not_spc (c :: t) h c t rfl
    have hcneg : ¬isSpc c = true := by rw [hc]; exact Bool.false_ne_true
    have hrev : (c :: t).reverse = t.reverse ++ [c] := by simp
    by_cases hnil : t.reverse.dropWhile isSpc = []
    · have h1 : rstrip (c :: t) = [c] := by
        unfold rstrip
        rw [hrev, dropWhile_append_nil isSpc _ _ hnil,
          List.dropWhile_cons_of_neg hcneg]
        rfl
      rw [h1]
      unfold lstrip
      rw [List.dropWhile_cons_of_neg hcneg]
    · have h1 : rstrip (c :: t) = c :: (t.reverse.dropWhile isSpc).reverse := by
        unfold rstrip
        rw [hrev, dropWhile_append_pos isSpc _ _ hnil]
        simp
      rw [h1]
      unfold lstrip
      rw [List.dropWhile_cons_of_neg hcneg]

theorem rstrip_idem (y : List Char) : rstrip (rstrip y) = rstrip y := by
  unfold rstrip
  rw [List.reverse_reverse, dropWhile_idem]

theorem strip_idem (x : List Char) : strip (strip x) = strip x := by
  unfold strip
  have h1 : lstrip (lstrip x) = lstrip x := dropWhile_idem isSpc x
  rw [lstrip_rstrip (lstrip x) h1, rstrip_idem]

theorem strip_marker (c0 : List Char) (h : startsW marker c0 = true) :
    startsW marker (strip c0) = true := by
  obtain ⟨t, ht⟩ := startsW_destruct marker c0 h
  subst ht
  have hl : lstrip (marker ++ t) = marker ++ t := by
    unfold lstrip
    show List.dropWhile isSpc ('M' :: ('S' :: 'H' :: '|' :: t)) = _
    rw [List.dropWhile_cons_of_neg (by decide)]
    rfl
  unfold strip
  rw [hl]
  unfold rstrip
  have hrev : (marker ++ t).reverse = t.reverse ++ marker.reverse := by simp
  rw [hrev]
  by_cases hnil : t.reverse.dropWhile isSpc = []
  · rw [dropWhile_append_nil isSpc _ _ hnil]
    have : marker.reverse.dropWhile isSpc = marker.reverse := by decide
    rw [this]
    simp only [List.reverse_reverse]
    have : marker = marker ++ [] := by simp
    rw [this]
    exact startsW_append marker []
  · rw [dropWhile_append_pos isSpc _ _ hnil]
    have : ((t.reverse.dropWhile isSpc) ++ marker.reverse).reverse
        = marker ++ (t.reverse.dropWhile isSpc).reverse := by simp
    rw [this]
    exact startsW_append marker _

theorem chunks_marker :
    ∀ (n : Nat) (r : List Char), r.length ≤ n →
      ∀ chunk ∈ msplitAux ['M'] ('S' :: 'H' :: '|' :: r), startsW marker chunk = true := by
  intro n
  induction n with
  | zero =>
    intro r hr chunk hc
    have hr0 : r = [] := List.length_eq_zero.mp (by omega)
    subst hr0
    rw [msplitAux_eq_nil ('S' :: 'H' :: '|' :: []) ['M'] ('S' :: 'H' :: '|' :: []) rfl] at hc
    simp only [List.mem_singleton] at hc
    subst hc
    decide
  | succ n ih =>
    intro r hr chunk hc
    have hshp := breakMarker_shp r
    rcases hsnd : (breakMarker r).2 with _ | ⟨d, b'⟩
    · rw [msplitAux_eq_nil _ ['M'] _ (by rw [hshp, hsnd])] at hc
      simp only [List.mem_singleton] at hc
      subst hc
      show startsW marker (['M'] ++ 'S' :: 'H' :: '|' :: (breakMarker r).1) = true
      have : ['M'] ++ 'S' :: 'H' :: '|' :: (breakMarker r).1
          = marker ++ (breakMarker r).1 := rfl
      rw [this]
      exact startsW_append marker _
    · have hmk : startsW marker (d :: b') = true := by
        rcases breakMarker_snd r with h0 | h0
        · rw [hsnd] at h0; exact absurd h0 (by simp)
        · rw [hsnd] at h0; exact h0
      obtain ⟨t, ht⟩ := startsW_destruct marker _ hmk
      have ht2 : d :: b' = 'M' :: ('S' :: 'H' :: '|' :: t) := ht
      injection ht2 with hd hb'
      rw [msplitAux_eq_cons _ ['M'] _ (d :: b') b' d rfl (by rw [hshp, hsnd])] at hc
      rcases List.mem_cons.mp hc with hc1 | hc2
      · subst hc1
        show startsW marker (['M'] ++ 'S' :: 'H' :: '|' :: (breakMarker r).1) = true
        have : ['M'] ++ 'S' :: 'H' :: '|' :: (breakMarker r).1
            = marker ++ (breakMarker r).1 := rfl
        rw [this]
        exact startsW_append marker _
      · have hlen : b'.length ≤ n := by
          have h1 : (breakMarker r).2.length ≤ r.length := breakMarker_snd_len r
          rw [hsnd] at h1
          simp only [List.length_cons] at h1
          omega
        rw [hd, hb'] at hc2
        exact ih t (by rw [hb'] at hlen; simp only [List.length_cons] at hlen; omega) chunk hc2

theorem chunks_structure (t : List Char) :
    ∀ chunk ∈ (msplitAux [] t).drop 1, startsW marker chunk = true := by
  intro chunk hc
  rcases hsnd : (breakMarker t).2 with _ | ⟨d, b'⟩
  · rw [msplitAux_eq_nil t [] (breakMarker t).1 (by rw [← hsnd])] at hc
    simp at hc
  · have hmk : startsW marker (d :: b') = true := by
      rcases breakMarker_snd t with h0 | h0
      · rw [hsnd] at h0; exact absurd h0 (by simp)
      · rw [hsnd] at h0; exact h0
    obtain ⟨u, hu⟩ := startsW_destruct marker _ hmk
    have hu2 : d :: b' = 'M' :: ('S' :: 'H' :: '|' :: u) := hu
    injection hu2 with hd hb'
    rw [msplitAux_eq_cons t [] (breakMarker t).1 (d :: b') b' d rfl (by rw [← hsnd])] at hc
    simp only [List.drop_one, List.tail_cons] at hc
    rw [hd, hb'] at hc
    exact chunks_marker u.length u (le_refl _) chunk hc

/-- C10: every message returned by split_hl7_messages is nonempty and
carries no leading or trailing whitespace (it is a fixed point of
strip), and every message except possibly the first begins with MSH|. -/
theorem c10_split_invariants (raw : List Char) :
    (∀ m ∈ split_hl7_messages raw, m ≠ [] ∧ strip m = m)
    ∧ ∀ m ∈ (split_hl7_messages raw).drop 1, startsW marker m = true := by
  constructor
  · intro m hm
    unfold split_hl7_messages at hm
    rw [List.mem_filter] at hm
    obtain ⟨hmem, hq⟩ := hm
    rcases List.mem_map.mp hmem with ⟨c0, _, hc0⟩
    constructor
    · intro hnil
      rw [hnil] at hq
      exact absurd hq (by simp)
    · rw [← hc0]
      exact strip_idem c0
  · intro m hm
    unfold split_hl7_messages at hm
    rcases hL : msplitAux [] (crlf raw) with _ | ⟨c0, tcs⟩
    · exact absurd hL (msplitAux_ne_nil (crlf raw) [])
    · rw [hL] at hm
      simp only [List.map_cons] at hm
      rw [List.filter_cons] at hm
      have hsub : m ∈ (tcs.map strip).filter (fun m => !m.isEmpty) := by
        by_cases hq : (!(strip c0).isEmpty) = true
        · rw [if_pos hq] at hm
          simpa using hm
        · rw [if_neg hq] at hm
          exact List.drop_subset 1 _ hm
      rw [List.mem_filter] at hsub
      rcases List.mem_map.mp hsub.1 with ⟨c, hcmem, hc⟩
      have hcm : startsW marker c = true := by
        apply chunks_structure (crlf raw)
        rw [hL]
        simpa using hcmem
      rw [← hc]
      exact strip_marker c hcm

theorem c10_witness :
    ((str ("junk")) ≠ [] ∧ strip (str ("junk")) = str ("junk"))
    ∧ startsW marker (str ("MSH|B")) = true :=
  ⟨(c10_split_invariants (str ("junk MSH|A\nMSH|B"))).1 (str ("junk")) (by decide),
   (c10_split_invariants (str ("junk MSH|A\nMSH|B"))).2 (str ("MSH|B")) (by decide)⟩

theorem getD_set_eq (l : List (List Char)) (j : Nat) (a : List Char) (h : j < l.length) :
    (l.set j a).getD j [] = a := by
  rw [List.getD_eq_getElem?_getD, List.getElem?_set]
  simp [h]

theorem getD_set_ne (l : List (List Char)) (i j : Nat) (a : List Char) (h : i ≠ j) :
    (l.set i a).getD j [] = l.getD j [] := by
  rw [List.getD_eq_getElem?_getD, List.getElem?_set, if_neg h, ← List.getD_eq_getElem?_getD]

theorem getD_eq_getElem (l : List (List Char)) (j : Nat) (h : j < l.length) :
    l.getD j [] = l[j] := by
  rw [List.getD_eq_getElem?_getD, List.getElem?_eq_getElem h]
  rfl

theorem ext_getD (L1 L2 : List (List Char)) (hlen : L1.length = L2.length)
    (h : ∀ j, L1.getD j [] = L2.getD j []) : L1 = L2 := by
  refine List.ext_getElem hlen (fun n h1 h2 => ?_)
  rw [← getD_eq_getElem _ _ h1, ← getD_eq_getElem _ _ h2]
  exact h n

theorem truthy_getD_pos (o : Option Nat) (h : truthyCi o = true) : 1 ≤ o.getD 0 := by
  cases o with
  | none => exact absurd h (by simp [truthyCi])
  | some k =>
    simp only [truthyCi, bne_iff_ne, Bool.not_eq_true'] at h
    have : k ≠ 0 := by
      intro h0
      rw [h0] at h
      simp at h
    simp only [Option.getD_some]
    omega

theorem padTo_length (c : Nat) (L : List (List Char)) :
    (padTo c L).length = max L.length c := by
  unfold padTo
  rw [List.length_append, List.length_replicate]
  rcases Nat.le_total L.length c with h | h
  · rw [Nat.max_eq_right h]; omega
  · rw [Nat.max_eq_left h]; omega

theorem padTo_getD (c : Nat) (L : List (List Char)) (j : Nat) :
    (padTo c L).getD j [] = L.getD j [] := by
  unfold padTo
  by_cases h : j < L.length
  · exact List.getD_append L _ [] j h
  · rw [List.getD_eq_default L _ (by omega)]
    by_cases h2 : j < (L ++ List.replicate (c - L.length) ([] : List Char)).length
    · rw [getD_eq_getElem _ _ h2]
      have hget : (L ++ List.replicate (c - L.length) ([] : List Char))[j] ∈
          L ++ List.replicate (c - L.length) ([] : List Char) := List.getElem_mem h2
      rcases List.mem_append.mp hget with hx1 | hx2
      · rw [List.length_append, List.length_replicate] at h2
        rw [List.getElem_append_right (by omega)]
        exact List.eq_of_mem_replicate (List.getElem_mem _)
      · exact List.eq_of_mem_replicate hx2
    · rw [List.getD_eq_default _ _ (by omega)]

theorem cpadset_length (c : Nat) (w : List Char) (L : List (List Char)) :
    (cpadset c w L).length = max L.length c := by
  unfold cpadset
  rw [List.length_set, padTo_length]

theorem cpadset_getD (c : Nat) (w : List Char) (L : List (List Char)) (j : Nat)
    (hc : 1 ≤ c) :
    (cpadset c w L).getD j [] = if c - 1 = j then w else L.getD j [] := by
  unfold cpadset
  by_cases h : c - 1 = j
  · rw [if_pos h, ← h]
    refine getD_set_eq _ _ _ ?_
    rw [padTo_length]
    rcases Nat.le_total L.length c with h2 | h2
    · rw [Nat.max_eq_right h2]; omega
    · rw [Nat.max_eq_left h2]; omega
  · rw [if_neg h, getD_set_ne _ _ _ _ h, padTo_getD]

theorem cFold_cons (e : FAddr × List Char) (ops : List (FAddr × List Char))
    (M : List (List Char)) :
    cFold (e :: ops) M = cFold ops (cpadset (e.1.ci.getD 0) (effVal e.2) M) := rfl

theorem fFold_cons (e : FAddr × List Char) (ops : List (FAddr × List Char)) (x : List Char) :
    fFold (e :: ops) x = fFold ops (fop e.1 e.2 x) := rfl

theorem cFold_length (ops : List (FAddr × List Char))
    (hops : ∀ e ∈ ops, truthyCi e.1.ci = true) :
    ∀ M : List (List Char), (cFold ops M).length = max M.length (maxC ops) := by
  induction ops with
  | nil => intro M; simp [cFold, maxC]
  | cons e t ih =>
    intro M
    rw [cFold_cons, ih (fun x hx => hops x (List.mem_cons_of_mem e hx)), cpadset_length]
    show max (max M.length (e.1.ci.getD 0)) (maxC t) = max M.length (maxC (e :: t))
    rw [Nat.max_assoc]
    rfl

theorem cFold_getD (ops : List (FAddr × List Char))
    (hops : ∀ e ∈ ops, truthyCi e.1.ci = true) :
    ∀ (M : List (List Char)) (j : Nat),
      (cFold ops M).getD j [] = (lastVal ops j).getD (M.getD j []) := by
  induction ops with
  | nil => intro M j; rfl
  | cons e t ih =>
    intro M j
    rw [cFold_cons, ih (fun x hx => hops x (List.mem_cons_of_mem e hx))]
    have hc : 1 ≤ e.1.ci.getD 0 :=
      truthy_getD_pos e.1.ci (hops e (List.mem_cons_self e t))
    rw [cpadset_getD _ _ _ _ hc]
    show _ = (lastVal (e :: t) j).getD (M.getD j [])
    rcases hl : lastVal t j with _ | w
    · simp only [lastVal, hl]
      by_cases hj : e.1.ci.getD 0 - 1 = j
      · rw [if_pos hj, if_pos hj]
        rfl
      · rw [if_neg hj, if_neg hj]
    · simp only [lastVal, hl]
      rfl

theorem cFold_idem (ops : List (FAddr × List Char))
    (hops : ∀ e ∈ ops, truthyCi e.1.ci = true) (M : List (List Char)) :
    cFold ops (cFold ops M) = cFold ops M := by
  refine ext_getD _ _ ?_ ?_
  · rw [cFold_length ops hops, cFold_length ops hops,
      Nat.max_assoc, Nat.max_self]
  · intro j
    rw [cFold_getD ops hops, cFold_getD ops hops]
    rcases hl : lastVal ops j with _ | w
    · rfl
    · rfl

theorem effVal_chars (ch : Char) (v : List Char) (h : ch ∉ v) : ch ∉ effVal v := by
  unfold effVal
  by_cases hd : (v.map Char.toLower == deleteTok) = true
  · rw [if_pos hd]; simp
  · rw [if_neg hd]; exact h

theorem padTo_mem (c : Nat) (L : List (List Char)) (x : List Char) (h : x ∈ padTo c L) :
    x ∈ L ∨ x = [] := by
  unfold padTo at h
  rcases List.mem_append.mp h with h1 | h2
  · exact Or.inl h1
  · exact Or.inr (List.eq_of_mem_replicate h2)

theorem cpadset_mem (c : Nat) (w : List Char) (L : List (List Char)) (x : List Char)
    (h : x ∈ cpadset c w L) : x ∈ L ∨ x = w ∨ x = [] := by
  unfold cpadset at h
  rcases List.mem_or_eq_of_mem_set h with h1 | h2
  · rcases padTo_mem c L x h1 with h3 | h3
    · exact Or.inl h3
    · exact Or.inr (Or.inr h3)
  · exact Or.inr (Or.inl h2)

theorem cFold_carFree (ops : List (FAddr × List Char))
    (hops : ∀ e ∈ ops, ('^' : Char) ∉ effVal e.2) :
    ∀ M : List (List Char), (∀ x ∈ M, ('^' : Char) ∉ x) →
      ∀ x ∈ cFold ops M, ('^' : Char) ∉ x := by
  induction ops with
  | nil => intro M hM x hx; exact hM x hx
  | cons e t ih =>
    intro M hM x hx
    rw [cFold_cons] at hx
    refine ih (fun e2 he2 => hops e2 (List.mem_cons_of_mem e he2)) _ ?_ x hx
    intro y hy
    rcases cpadset_mem _ _ _ y hy with h1 | h2 | h3
    · exact hM y h1
    · rw [h2]; exact hops e (List.mem_cons_self e t)
    · rw [h3]; simp

theorem cFold_ne_nil (ops : List (FAddr × List Char))
    (hops : ∀ e ∈ ops, truthyCi e.1.ci = true) (M : List (List Char)) (hM : M ≠ []) :
    cFold ops M ≠ [] := by
  intro hnil
  have := cFold_length ops hops M
  rw [hnil] at this
  simp only [List.length_nil] at this
  have hlen : M.length ≠ 0 := fun h0 => hM (List.length_eq_zero.mp h0)
  rcases Nat.le_total M.length (maxC ops) with h | h
  · rw [Nat.max_eq_right h] at this; omega
  · rw [Nat.max_eq_left h] at this; omega

theorem fop_comp (e : FAddr × List Char) (ht : truthyCi e.1.ci = true) (x : List Char) :
    fop e.1 e.2 x = joinWith '^' (cpadset (e.1.ci.getD 0) (effVal e.2) (splitOnC '^' x)) := by
  unfold fop cpadset
  rw [if_pos ht]

theorem fFold_comp_eq (ops : List (FAddr × List Char))
    (hops : ∀ e ∈ ops, truthyCi e.1.ci = true ∧ ('^' : Char) ∉ effVal e.2) :
    ∀ M : List (List Char), M ≠ [] → (∀ x ∈ M, ('^' : Char) ∉ x) →
      fFold ops (joinWith '^' M) = joinWith '^' (cFold ops M) := by
  induction ops with
  | nil => intro M _ _; rfl
  | cons e t ih =>
    intro M hne hfree
    rw [fFold_cons, cFold_cons]
    have ht := (hops e (List.mem_cons_self e t)).1
    have hw := (hops e (List.mem_cons_self e t)).2
    rw [fop_comp e ht, splitOnC_joinWith '^' M hne hfree]
    refine ih (fun e2 he2 => hops e2 (List.mem_cons_of_mem e he2)) _ ?_ ?_
    · intro hnil
      have hlen := congrArg List.length hnil
      rw [cpadset_length] at hlen
      simp only [List.length_nil] at hlen
      have hc : 1 ≤ e.1.ci.getD 0 := truthy_getD_pos e.1.ci ht
      rcases Nat.le_total M.length (e.1.ci.getD 0) with h | h
      · rw [Nat.max_eq_right h] at hlen; omega
      · rw [Nat.max_eq_left h] at hlen
        have : M.length ≠ 0 := fun h0 => hne (List.length_eq_zero.mp h0)
        omega
    · intro y hy
      rcases cpadset_mem _ _ _ y hy with h1 | h2 | h3
      · exact hfree y h1
      · rw [h2]; exact hw
      · rw [h3]; simp

theorem fFold_classify (ops : List (FAddr × List Char)) :
    (∀ e ∈ ops, truthyCi e.1.ci = true) ∨ (∀ x y, fFold ops x = fFold ops y) := by
  induction ops with
  | nil => exact Or.inl (by simp)
  | cons e t ih =>
    rcases ih with ihl | ihr
    · by_cases ht : truthyCi e.1.ci = true
      · refine Or.inl ?_
        intro e2 he2
        rcases List.mem_cons.mp he2 with h1 | h2
        · rw [h1]; exact ht
        · exact ihl e2 h2
      · refine Or.inr ?_
        intro x y
        rw [fFold_cons, fFold_cons]
        have hx : fop e.1 e.2 x = effVal e.2 := by
          unfold fop
          rw [if_neg ht]
        have hy : fop e.1 e.2 y = effVal e.2 := by
          unfold fop
          rw [if_neg ht]
        rw [hx, hy]
    · refine Or.inr ?_
      intro x y
      rw [fFold_cons, fFold_cons]
      exact ihr _ _

theorem fFold_idem (ops : List (FAddr × List Char))
    (hops : ∀ e ∈ ops, truthyCi e.1.ci = true → ('^' : Char) ∉ effVal e.2) (x : List Char) :
    fFold ops (fFold ops x) = fFold ops x := by
  rcases fFold_classify ops with hcomp | hconst
  · have hops2 : ∀ e ∈ ops, truthyCi e.1.ci = true ∧ ('^' : Char) ∉ effVal e.2 :=
      fun e he => ⟨hcomp e he, hops e he (hcomp e he)⟩
    have hsplit_ne := splitOnC_ne_nil '^' x
    have hsplit_free := mem_splitOnC_not_sep '^' x
    have h1 : fFold ops x = joinWith '^' (cFold ops (splitOnC '^' x)) := by
      have := fFold_comp_eq ops hops2 (splitOnC '^' x) hsplit_ne hsplit_free
      rw [joinWith_splitOnC '^' x] at this
      exact this
    rw [h1]
    rw [fFold_comp_eq ops hops2 (cFold ops (splitOnC '^' x))
      (cFold_ne_nil ops (fun e he => (hops2 e he).1) _ hsplit_ne)
      (cFold_carFree ops (fun e he => (hops2 e he).2) _ hsplit_free)]
    rw [cFold_idem ops (fun e he => (hops2 e he).1)]
  · exact hconst _ _

theorem applyEdits_cons (e : FAddr × List Char) (es : List (FAddr × List Char))
    (parts : List (List Char)) :
    applyEdits parts (e :: es) = applyEdits (applyEditVal parts e.1 e.2) es := rfl

theorem applyEdits_getD (es : List (FAddr × List Char)) :
    ∀ (parts : List (List Char)) (j : Nat), j < parts.length →
      (applyEdits parts es).getD j [] =
        fFold (es.filter (fun e => e.1.fi == j)) (parts.getD j []) := by
  induction es with
  | nil => intro parts j _; rfl
  | cons e t ih =>
    intro parts j hj
    rw [applyEdits_cons]
    rw [ih _ j (by rw [applyEditVal_length]; exact hj)]
    by_cases he : e.1.fi = j
    · have hfi : e.1.fi < parts.length := by rw [he]; exact hj
      have hfilter : (e :: t).filter (fun e => e.1.fi == j)
          = e :: t.filter (fun e => e.1.fi == j) := by
        rw [List.filter_cons, if_pos (by simp [he])]
      rw [hfilter, fFold_cons]
      have hget : (applyEditVal parts e.1 e.2).getD j [] = fop e.1 e.2 (parts.getD j []) := by
        unfold applyEditVal
        rw [if_pos hfi, he]
        exact getD_set_eq parts j _ hj
      rw [hget]
    · have hfilter : (e :: t).filter (fun e => e.1.fi == j)
          = t.filter (fun e => e.1.fi == j) := by
        rw [List.filter_cons, if_neg (by simp [he])]
      rw [hfilter]
      have hget : (applyEditVal parts e.1 e.2).getD j [] = parts.getD j [] := by
        unfold applyEditVal
        by_cases hfi : e.1.fi < parts.length
        · rw [if_pos hfi]
          exact getD_set_ne parts e.1.fi j _ he
        · rw [if_neg hfi]
      rw [hget]

theorem applyEdits_idem (es : List (FAddr × List Char))
    (hes : ∀ e ∈ es, truthyCi e.1.ci = true → ('^' : Char) ∉ effVal e.2)
    (parts : List (List Char)) :
    applyEdits (applyEdits parts es) es = applyEdits parts es := by
  refine ext_getD _ _ ?_ ?_
  · rw [applyEdits_length, applyEdits_length]
  · intro j
    by_cases hj : j < parts.length
    · rw [applyEdits_getD es _ j (by rw [applyEdits_length]; exact hj),
        applyEdits_getD es _ j hj]
      refine fFold_idem _ ?_ _
      intro e he
      exact hes e (List.mem_filter.mp he).1
    · rw [List.getD_eq_default _ _ (by rw [applyEdits_length, applyEdits_length]; omega),
        List.getD_eq_default _ _ (by rw [applyEdits_length]; omega)]

theorem chars_mem_splitOnC (sep : Char) :
    ∀ (l : List Char) (x : List Char), x ∈ splitOnC sep l → ∀ c ∈ x, c ∈ l := by
  intro l
  induction l with
  | nil =>
    intro x hx c hc
    simp only [splitOnC, List.mem_singleton] at hx
    subst hx
    simp at hc
  | cons d rest ih =>
    intro x hx c hc
    simp only [splitOnC] at hx
    by_cases hd : d = sep
    · rw [if_pos hd] at hx
      rcases List.mem_cons.mp hx with h1 | h2
      · subst h1; simp at hc
      · exact List.mem_cons_of_mem d (ih x h2 c hc)
    · rw [if_neg hd] at hx
      rcases hs : splitOnC sep rest with _ | ⟨h, t⟩
      · exact absurd hs (splitOnC_ne_nil sep rest)
      · rw [hs] at hx
        simp only [consHead] at hx
        rcases List.mem_cons.mp hx with h1 | h2
        · subst h1
          rcases List.mem_cons.mp hc with h3 | h4
          · subst h3; exact List.mem_cons_self c rest
          · refine List.mem_cons_of_mem d (ih h ?_ c h4)
            rw [hs]; exact List.mem_cons_self h t
        · refine List.mem_cons_of_mem d (ih x ?_ c hc)
          rw [hs]; exact List.mem_cons_of_mem h h2

theorem chars_joinWith (sep : Char) :
    ∀ (L : List (List Char)) (c : Char), c ∈ joinWith sep L → c = sep ∨ ∃ x ∈ L, c ∈ x := by
  intro L
  induction L with
  | nil => intro c hc; simp [joinWith] at hc
  | cons x t ih =>
    intro c hc
    cases t with
    | nil =>
      show c = sep ∨ ∃ y ∈ [x], c ∈ y
      exact Or.inr ⟨x, List.mem_singleton.mpr rfl, hc⟩
    | cons y t2 =>
      have hj : joinWith sep (x :: y :: t2) = x ++ sep :: joinWith sep (y :: t2) := rfl
      rw [hj] at hc
      rcases List.mem_append.mp hc with h1 | h2
      · exact Or.inr ⟨x, List.mem_cons_self x _, h1⟩
      · rcases List.mem_cons.mp h2 with h3 | h4
        · exact Or.inl h3
        · rcases ih c h4 with h5 | ⟨z, hz, hcz⟩
          · exact Or.inl h5
          · exact Or.inr ⟨z, List.mem_cons_of_mem x hz, hcz⟩

theorem mem_dropWhile_of_not (p : Char → Bool) (ch : Char) (hch : ¬p ch = true) :
    ∀ l : List Char, ch ∈ l → ch ∈ l.dropWhile p := by
  intro l
  induction l with
  | nil => intro h; simp at h
  | cons c t ih =>
    intro h
    by_cases hc : p c
    · rw [List.dropWhile_cons_of_pos hc]
      rcases List.mem_cons.mp h with h1 | h2
      · subst h1; exact absurd hc hch
      · exact ih h2
    · rw [List.dropWhile_cons_of_neg hc]
      exact h

theorem mem_strip (ch : Char) (hch : isSpc ch = false) (l : List Char) (h : ch ∈ l) :
    ch ∈ strip l := by
  have hns : ¬isSpc ch = true := by rw [hch]; exact Bool.false_ne_true
  unfold strip rstrip lstrip
  refine List.mem_reverse.mpr ?_
  refine mem_dropWhile_of_not isSpc ch hns _ ?_
  refine List.mem_reverse.mpr ?_
  exact mem_dropWhile_of_not isSpc ch hns l h

theorem joinWith_mem_sep (sep : Char) (L : List (List Char)) (h : 2 ≤ L.length) :
    sep ∈ joinWith sep L := by
  cases L with
  | nil => simp at h
  | cons x t =>
    cases t with
    | nil => simp at h
    | cons y t2 =>
      have hj : joinWith sep (x :: y :: t2) = x ++ sep :: joinWith sep (y :: t2) := rfl
      rw [hj]
      exact List.mem_append.mpr (Or.inr (List.mem_cons_self sep _))

theorem applyEditVal_chars (ch : Char) (hch : ¬ch = '^') (a : FAddr) (v : List Char)
    (hv : ch ∉ v) (parts : List (List Char)) (hp : ∀ x ∈ parts, ch ∉ x) :
    ∀ x ∈ applyEditVal parts a v, ch ∉ x := by
  intro x hx
  unfold applyEditVal at hx
  by_cases hfi : a.fi < parts.length
  · rw [if_pos hfi] at hx
    rcases List.mem_or_eq_of_mem_set hx with h1 | h2
    · exact hp x h1
    · subst h2
      intro hcmem
      unfold fop at hcmem
      by_cases ht : truthyCi a.ci = true
      · rw [if_pos ht] at hcmem
        rcases chars_joinWith '^' _ ch hcmem with h3 | ⟨z, hz, hcz⟩
        · exact hch h3
        · rcases cpadset_mem _ _ _ z hz with h4 | h5 | h6
          · have hfld : parts.getD a.fi [] ∈ parts := by
              rw [getD_eq_getElem _ _ hfi]
              exact List.getElem_mem hfi
            exact hp _ hfld (chars_mem_splitOnC '^' _ z h4 ch hcz)
          · subst h5
            exact effVal_chars ch v hv hcz
          · subst h6
            simp at hcz
      · rw [if_neg ht] at hcmem
        exact effVal_chars ch v hv hcmem
  · rw [if_neg hfi] at hx
    exact hp x hx

theorem applyEdits_chars (ch : Char) (hch : ¬ch = '^') (es : List (FAddr × List Char))
    (hes : ∀ e ∈ es, ch ∉ e.2) :
    ∀ parts : List (List Char), (∀ x ∈ parts, ch ∉ x) →
      ∀ x ∈ applyEdits parts es, ch ∉ x := by
  induction es with
  | nil => intro parts hp x hx; exact hp x hx
  | cons e t ih =>
    intro parts hp x hx
    rw [applyEdits_cons] at hx
    refine ih (fun e2 he2 => hes e2 (List.mem_cons_of_mem e he2)) _ ?_ x hx
    exact applyEditVal_chars ch hch e.1 e.2 (hes e (List.mem_cons_self e t)) parts hp

theorem applyEdits_oob (es : List (FAddr × List Char)) :
    ∀ parts : List (List Char), (∀ e ∈ es, parts.length ≤ e.1.fi) →
      applyEdits parts es = parts := by
  induction es with
  | nil => intro parts _; rfl
  | cons e t ih =>
    intro parts h
    rw [applyEdits_cons]
    have h1 : applyEditVal parts e.1 e.2 = parts := by
      unfold applyEditVal
      rw [if_neg (by have := h e (List.mem_cons_self e t); omega)]
    rw [h1]
    exact ih parts (fun e2 he2 => h e2 (List.mem_cons_of_mem e he2))

theorem groupStep_cases (seg : List Char) (st : List (List Char) × Bool) (g : EditGroup) :
    groupStep seg st g = st ∨
      groupStep seg st g =
        (applyEdits st.1 ((g.edits.filter (fun e => e.seg == seg)).map
          (fun e => (e.addr, e.val))), true) := by
  unfold groupStep
  by_cases h1 : (((g.filters.filter (fun f => f.seg == seg)).map
        (fun f => (f.addr, f.val))).isEmpty
      || ((g.edits.filter (fun e => e.seg == seg)).map (fun e => (e.addr, e.val))).isEmpty) = true
  · rw [if_pos h1]
    exact Or.inl rfl
  · rw [if_neg h1]
    by_cases h2 : segment_line_matches st.1 ((g.filters.filter (fun f => f.seg == seg)).map
        (fun f => (f.addr, f.val))) = true
    · rw [if_pos h2]
      exact Or.inr rfl
    · rw [if_neg h2]
      exact Or.inl rfl

theorem processLine_single (g : EditGroup) (line : List Char) :
    processLine [g] line =
      if (strip line).isEmpty then line
      else
        if (groupStep ((splitOnC '|' line).getD 0 []) (splitOnC '|' line, false) g).2 then
          joinWith '|' (groupStep ((splitOnC '|' line).getD 0 [])
            (splitOnC '|' line, false) g).1
        else joinWith '|' (splitOnC '|' line) := rfl

theorem processLine_single_idem (g : EditGroup)
    (hg : ∀ e ∈ g.edits, 1 ≤ e.addr.fi ∧ ('|' : Char) ∉ e.val ∧
      (truthyCi e.addr.ci = true → ('^' : Char) ∉ e.val)) (line : List Char) :
    processLine [g] (processLine [g] line) = processLine [g] line := by
  have hge1 : ∀ e ∈ (g.edits.filter (fun e => e.seg == (splitOnC '|' line).getD 0 [])).map
      (fun e => (e.addr, e.val)), 1 ≤ e.1.fi := by
    intro e he
    rcases List.mem_map.mp he with ⟨e0, he0, heq⟩
    rw [← heq]
    exact (hg e0 (List.mem_filter.mp he0).1).1
  have hge2 : ∀ e ∈ (g.edits.filter (fun e => e.seg == (splitOnC '|' line).getD 0 [])).map
      (fun e => (e.addr, e.val)), ('|' : Char) ∉ e.2 := by
    intro e he
    rcases List.mem_map.mp he with ⟨e0, he0, heq⟩
    rw [← heq]
    exact (hg e0 (List.mem_filter.mp he0).1).2.1
  have hge3 : ∀ e ∈ (g.edits.filter (fun e => e.seg == (splitOnC '|' line).getD 0 [])).map
      (fun e => (e.addr, e.val)), truthyCi e.1.ci = true → ('^' : Char) ∉ effVal e.2 := by
    intro e he ht
    rcases List.mem_map.mp he with ⟨e0, he0, heq⟩
    refine effVal_chars '^' e.2 ?_
    have h1 := (hg e0 (List.mem_filter.mp he0).1).2.2
    rw [← heq] at ht ⊢
    exact h1 ht
  by_cases hblank : (strip line).isEmpty
  · have hPL : processLine [g] line = line := by
      rw [processLine_single, if_pos hblank]
    rw [hPL]
    exact hPL
  · rcases groupStep_cases ((splitOnC '|' line).getD 0 []) (splitOnC '|' line, false) g
      with hst | hst
    · have hPL : processLine [g] line = line := by
        rw [processLine_single, if_neg hblank, hst]
        show joinWith '|' (splitOnC '|' line) = line
        exact joinWith_splitOnC '|' line
      rw [hPL]
      exact hPL
    · have hPL : processLine [g] line = joinWith '|'
          (applyEdits (splitOnC '|' line)
            ((g.edits.filter (fun e => e.seg == (splitOnC '|' line).getD 0 [])).map
              (fun e => (e.addr, e.val)))) := by
        rw [processLine_single, if_neg hblank, hst]
        rfl
      rw [hPL]
      have hfree : ∀ x ∈ applyEdits (splitOnC '|' line)
          ((g.edits.filter (fun e => e.seg == (splitOnC '|' line).getD 0 [])).map
            (fun e => (e.addr, e.val))), ('|' : Char) ∉ x :=
        applyEdits_chars '|' (by decide) _ hge2 _ (mem_splitOnC_not_sep '|' line)
      have hne : applyEdits (splitOnC '|' line)
          ((g.edits.filter (fun e => e.seg == (splitOnC '|' line).getD 0 [])).map
            (fun e => (e.addr, e.val))) ≠ [] := by
        intro hnil
        have := congrArg List.length hnil
        rw [applyEdits_length] at this
        exact splitOnC_ne_nil '|' line (List.length_eq_zero.mp this)
      have hsj : splitOnC '|' (joinWith '|'
          (applyEdits (splitOnC '|' line)
            ((g.edits.filter (fun e => e.seg == (splitOnC '|' line).getD 0 [])).map
              (fun e => (e.addr, e.val))))) =
          applyEdits (splitOnC '|' line)
            ((g.edits.filter (fun e => e.seg == (splitOnC '|' line).getD 0 [])).map
              (fun e => (e.addr, e.val))) :=
        splitOnC_joinWith '|' _ hne hfree
      have hseg : (applyEdits (splitOnC '|' line)
          ((g.edits.filter (fun e => e.seg == (splitOnC '|' line).getD 0 [])).map
            (fun e => (e.addr, e.val)))).getD 0 [] = (splitOnC '|' line).getD 0 [] :=
        applyEdits_getD_zero _ _ hge1
      by_cases hb2 : (strip (joinWith '|'
          (applyEdits (splitOnC '|' line)
            ((g.edits.filter (fun e => e.seg == (splitOnC '|' line).getD 0 [])).map
              (fun e => (e.addr, e.val)))))).isEmpty
      · rw [processLine_single, if_pos hb2]
      · rw [processLine_single, if_neg hb2, hsj, hseg]
        rcases groupStep_cases ((splitOnC '|' line).getD 0 [])
            (applyEdits (splitOnC '|' line)
              ((g.edits.filter (fun e => e.seg == (splitOnC '|' line).getD 0 [])).map
                (fun e => (e.addr, e.val))), false) g with h2 | h2
        · rw [h2]
          rfl
        · rw [h2]
          show joinWith '|' (applyEdits (applyEdits (splitOnC '|' line) _) _) = _
          rw [applyEdits_idem _ hge3]

theorem processLine_no_nl (g : EditGroup)
    (hg : ∀ e ∈ g.edits, ('\n' : Char) ∉ e.val) (l : List Char) (hl : ('\n' : Char) ∉ l) :
    ('\n' : Char) ∉ processLine [g] l := by
  by_cases hblank : (strip l).isEmpty
  · rw [processLine_single, if_pos hblank]
    exact hl
  · rcases groupStep_cases ((splitOnC '|' l).getD 0 []) (splitOnC '|' l, false) g
      with hst | hst
    · rw [processLine_single, if_neg hblank, hst]
      show ('\n' : Char) ∉ joinWith '|' (splitOnC '|' l)
      rw [joinWith_splitOnC]
      exact hl
    · rw [processLine_single, if_neg hblank, hst]
      show ('\n' : Char) ∉ joinWith '|' (applyEdits (splitOnC '|' l) _)
      intro hmem
      rcases chars_joinWith '|' _ '\n' hmem with h1 | ⟨x, hx, hcx⟩
      · exact absurd h1 (by decide)
      · have hfree : ∀ x ∈ applyEdits (splitOnC '|' l)
            ((g.edits.filter (fun e => e.seg == (splitOnC '|' l).getD 0 [])).map
              (fun e => (e.addr, e.val))), ('\n' : Char) ∉ x := by
          refine applyEdits_chars '\n' (by decide) _ ?_ _ ?_
          · intro e he
            rcases List.mem_map.mp he with ⟨e0, he0, heq⟩
            rw [← heq]
            exact hg e0 (List.mem_filter.mp he0).1
          · intro x hx2 hc
            exact hl (chars_mem_splitOnC '|' l x hx2 '\n' hc)
        exact hfree x hx hcx

/-- C5 (amended): one EditGroup applied twice gives the same corpus as
applied once, provided every edit addresses a field index of at least 1
and its new value contains neither the field separator, the line
separator, nor (for component edits) the component separator.  The
counterexample shows the restriction on the written value is needed. -/
theorem c5_amended_idempotent (msgs : List (List Char)) (g : EditGroup)
    (hg : ∀ e ∈ g.edits, 1 ≤ e.addr.fi ∧ ('|' : Char) ∉ e.val ∧ ('\n' : Char) ∉ e.val ∧
      (truthyCi e.addr.ci = true → ('^' : Char) ∉ e.val)) :
    apply_bulk_edits_exact_lines (apply_bulk_edits_exact_lines msgs [g]) [g]
      = apply_bulk_edits_exact_lines msgs [g] := by
  unfold apply_bulk_edits_exact_lines
  rw [List.map_map]
  refine List.map_congr_left ?_
  intro m _
  show joinWith '\n' ((splitOnC '\n' (joinWith '\n'
      ((splitOnC '\n' m).map (processLine [g])))).map (processLine [g]))
    = joinWith '\n' ((splitOnC '\n' m).map (processLine [g]))
  have hlines : splitOnC '\n' (joinWith '\n' ((splitOnC '\n' m).map (processLine [g])))
      = (splitOnC '\n' m).map (processLine [g]) := by
    refine splitOnC_joinWith '\n' _ ?_ ?_
    · intro hnil
      exact splitOnC_ne_nil '\n' m (List.map_eq_nil_iff.mp hnil)
    · intro x hx
      rcases List.mem_map.mp hx with ⟨l, hl, hpl⟩
      rw [← hpl]
      exact processLine_no_nl g (fun e he => (hg e he).2.2.1) l
        (mem_splitOnC_not_sep '\n' m l hl)
  rw [hlines, List.map_map]
  refine congrArg (joinWith '\n') (List.map_congr_left ?_)
  intro l _
  show processLine [g] (processLine [g] l) = processLine [g] l
  exact processLine_single_idem g
    (fun e he => ⟨(hg e he).1, (hg e he).2.1, (hg e he).2.2.2⟩) l

theorem c5_amended_witness :
    apply_bulk_edits_exact_lines
        (apply_bulk_edits_exact_lines [str ("S|a|x^y")]
          [⟨[⟨str ("S"), ⟨1, none⟩, str ("a")⟩], [⟨str ("S"), ⟨2, some 1⟩, str ("NEW")⟩]⟩])
        [⟨[⟨str ("S"), ⟨1, none⟩, str ("a")⟩], [⟨str ("S"), ⟨2, some 1⟩, str ("NEW")⟩]⟩]
      = apply_bulk_edits_exact_lines [str ("S|a|x^y")]
          [⟨[⟨str ("S"), ⟨1, none⟩, str ("a")⟩], [⟨str ("S"), ⟨2, some 1⟩, str ("NEW")⟩]⟩] :=
  c5_amended_idempotent [str ("S|a|x^y")]
    ⟨[⟨str ("S"), ⟨1, none⟩, str ("a")⟩], [⟨str ("S"), ⟨2, some 1⟩, str ("NEW")⟩]⟩
    (by decide)

theorem startsW_append_mono (pat : List Char) :
    ∀ x y, startsW pat x = true → startsW pat (x ++ y) = true := by
  induction pat with
  | nil => intro x y _; rfl
  | cons p ps ih =>
    intro x y h
    cases x with
    | nil => exact absurd h (by simp [startsW])
    | cons c cs =>
      simp only [startsW, Bool.and_eq_true, decide_eq_true_eq] at h
      simp only [List.cons_append, startsW, Bool.and_eq_true, decide_eq_true_eq]
      exact ⟨h.1, ih cs y h.2⟩

theorem startsW_nl_stop (pat : List Char) (hpat : ('\n' : Char) ∉ pat) :
    ∀ p q, startsW pat (p ++ '\n' :: q) = startsW pat p := by
  induction pat with
  | nil => intro p q; rfl
  | cons m ms ih =>
    intro p q
    have hm : m ≠ '\n' := fun h => hpat (h ▸ List.mem_cons_self m ms)
    have hms : ('\n' : Char) ∉ ms := fun h => hpat (List.mem_cons_of_mem m h)
    cases p with
    | nil =>
      show startsW (m :: ms) ('\n' :: q) = startsW (m :: ms) []
      simp only [startsW, Bool.and_eq_true, decide_eq_true_eq]
      rw [decide_eq_false hm]
      rfl
    | cons c cs =>
      show (decide (m = c) && startsW ms (cs ++ '\n' :: q))
        = (decide (m = c) && startsW ms cs)
      rw [ih hms cs q]

theorem containsSeq_append_right_mono (pat : List Char) :
    ∀ x y, containsSeq pat x = true → containsSeq pat (x ++ y) = true := by
  intro x
  induction x with
  | nil =>
    intro y h
    simp only [containsSeq, List.isEmpty_iff] at h
    subst h
    cases y with
    | nil => rfl
    | cons c cs => simp [containsSeq, startsW]
  | cons c cs ih =>
    intro y h
    simp only [containsSeq, Bool.or_eq_true] at h ⊢
    rcases h with h1 | h2
    · exact Or.inl (startsW_append_mono pat _ y h1)
    · exact Or.inr (ih y h2)

theorem containsSeq_append_left_mono (pat : List Char) (_hpat : pat ≠ []) :
    ∀ x y, containsSeq pat y = true → containsSeq pat (x ++ y) = true := by
  intro x
  induction x with
  | nil => intro y h; exact h
  | cons c cs ih =>
    intro y h
    simp only [List.cons_append, containsSeq, Bool.or_eq_true]
    exact Or.inr (ih y h)

theorem breakMarker_of_startsW (s : List Char) (h : startsW marker s = true) :
    breakMarker s = ([], s) := by
  cases s with
  | nil => exact absurd h (by simp [startsW, marker])
  | cons c cs =>
    simp only [breakMarker]
    rw [if_pos h]

theorem breakMarker_append_nl (x u : List Char) (hx : containsSeq marker x = false) :
    breakMarker (x ++ '\n' :: u) = (x ++ '\n' :: (breakMarker u).1, (breakMarker u).2) := by
  induction x with
  | nil =>
    simp only [List.nil_append]
    have h1 : ¬startsW marker ('\n' :: u) = true := by
      rw [startsW_marker_ne '\n' u (by decide)]
      exact Bool.false_ne_true
    simp only [breakMarker]
    rw [if_neg h1]
  | cons c cs ih =>
    simp only [containsSeq, Bool.or_eq_false_iff] at hx
    have h1 : ¬startsW marker ((c :: cs) ++ '\n' :: u) = true := by
      rw [startsW_nl_stop marker (by decide) (c :: cs) u, hx.1]
      exact Bool.false_ne_true
    show breakMarker (c :: (cs ++ '\n' :: u)) = _
    simp only [breakMarker]
    rw [if_neg (by simpa using h1), ih hx.2]
    rfl

theorem dropWhile_suffix_own (p : Char → Bool) (l : List Char) :
    ∃ u, u ++ l.dropWhile p = l := by
  induction l with
  | nil => exact ⟨[], rfl⟩
  | cons c t ih =>
    by_cases hc : p c
    · rcases ih with ⟨u, hu⟩
      refine ⟨c :: u, ?_⟩
      rw [List.dropWhile_cons_of_pos hc, List.cons_append, hu]
    · exact ⟨[], by rw [List.dropWhile_cons_of_neg hc]; rfl⟩

theorem rstrip_exists (c : List Char) : ∃ w, rstrip c ++ w = c := by
  unfold rstrip
  rcases dropWhile_suffix_own isSpc c.reverse with ⟨u, hu⟩
  refine ⟨u.reverse, ?_⟩
  have := congrArg List.reverse hu
  rw [List.reverse_append, List.reverse_reverse] at this
  exact this

theorem rstrip_length_le (y : List Char) : (rstrip y).length ≤ y.length := by
  unfold rstrip
  rw [List.length_reverse]
  calc (y.reverse.dropWhile isSpc).length ≤ y.reverse.length :=
        length_dropWhile_le_own isSpc y.reverse
    _ = y.length := List.length_reverse y

theorem strip_to_lstrip (x : List Char) (h : strip x = x) : lstrip x = x := by
  have h1 : (lstrip x).length ≤ x.length := length_dropWhile_le_own isSpc x
  have h2 : (strip x).length ≤ (lstrip x).length := rstrip_length_le (lstrip x)
  rw [h] at h2
  rcases dropWhile_suffix_own isSpc x with ⟨u, hu⟩
  have hul : u.length + (lstrip x).length = x.length := by
    have := congrArg List.length hu
    rw [List.length_append] at this
    exact this
  have hu0 : u.length = 0 := by omega
  rw [List.length_eq_zero.mp hu0] at hu
  exact hu

theorem rstrip_of_strip (x : List Char) (h : strip x = x) : rstrip x = x := by
  have hl := strip_to_lstrip x h
  unfold strip at h
  rw [hl] at h
  exact h

theorem lstrip_cons_not_spc (c : Char) (t : List Char) (hc : isSpc c = false) :
    lstrip (c :: t) = c :: t := by
  unfold lstrip
  rw [List.dropWhile_cons_of_neg (by rw [hc]; exact Bool.false_ne_true)]

theorem strip_append_nl (x : List Char) (hne : x ≠ []) (h : strip x = x) :
    strip (x ++ ['\n']) = x := by
  cases x with
  | nil => exact absurd rfl hne
  | cons c t =>
    have hc : isSpc c = false := lstrip_head_not_spc (c :: t) (strip_to_lstrip _ h) c t rfl
    have h1 : lstrip ((c :: t) ++ ['\n']) = (c :: t) ++ ['\n'] := by
      show lstrip (c :: (t ++ ['\n'])) = _
      rw [lstrip_cons_not_spc c _ hc]
      rfl
    unfold strip
    rw [h1]
    have h2 : rstrip ((c :: t) ++ ['\n']) = rstrip (c :: t) := by
      unfold rstrip
      rw [List.reverse_append]
      show (List.dropWhile isSpc ('\n' :: (c :: t).reverse)).reverse = _
      rw [List.dropWhile_cons_of_pos (by decide)]
    rw [h2]
    exact rstrip_of_strip _ h

theorem mem_strip_subset (ch : Char) (l : List Char) (h : ch ∈ strip l) : ch ∈ l := by
  unfold strip rstrip lstrip at h
  rw [List.mem_reverse] at h
  rcases dropWhile_suffix_own isSpc (l.dropWhile isSpc).reverse with ⟨u, hu⟩
  have h2 : ch ∈ (l.dropWhile isSpc).reverse := by
    rw [← hu]
    exact List.mem_append.mpr (Or.inr h)
  rw [List.mem_reverse] at h2
  rcases dropWhile_suffix_own isSpc l with ⟨v, hv⟩
  rw [← hv]
  exact List.mem_append.mpr (Or.inr h2)

theorem crlf_no_cr (l : List Char) : ('\r' : Char) ∉ crlf l := by
  intro h
  unfold crlf at h
  rcases List.mem_map.mp h with ⟨a, _, ha⟩
  by_cases hr : a = '\r'
  · rw [if_pos hr] at ha
    exact absurd ha (by decide)
  · rw [if_neg hr] at ha
    exact hr ha

theorem crlf_id_of_no_cr (l : List Char) (h : ('\r' : Char) ∉ l) : crlf l = l := by
  unfold crlf
  have : ∀ c ∈ l, (if c = '\r' then '\n' else c) = c := by
    intro c hc
    have hcr : ¬c = '\r' := by
      intro he
      rw [he] at hc
      exact h hc
    rw [if_neg hcr]
  calc l.map (fun c => if c = '\r' then '\n' else c) = l.map id := List.map_congr_left this
    _ = l := List.map_id l

theorem msplitAux_chars :
    ∀ (s cur : List Char) (chunk : List Char), chunk ∈ msplitAux cur s →
      ∀ ch ∈ chunk, ch ∈ cur ∨ ch ∈ s := by
  intro s
  induction s with
  | nil =>
    intro cur chunk hc ch hch
    simp only [msplitAux, List.mem_singleton] at hc
    subst hc
    exact Or.inl (List.mem_reverse.mp hch)
  | cons c rest ih =>
    intro cur chunk hc ch hch
    simp only [msplitAux] at hc
    by_cases hW : startsW marker (c :: rest)
    · rw [if_pos hW] at hc
      rcases List.mem_cons.mp hc with h1 | h2
      · subst h1
        exact Or.inl (List.mem_reverse.mp hch)
      · rcases ih [c] chunk h2 ch hch with h3 | h4
        · rw [List.mem_singleton] at h3
          refine Or.inr ?_
          rw [h3]
          exact List.mem_cons_self c rest
        · exact Or.inr (List.mem_cons_of_mem c h4)
    · rw [if_neg hW] at hc
      rcases ih (c :: cur) chunk hc ch hch with h3 | h4
      · rcases List.mem_cons.mp h3 with h5 | h6
        · refine Or.inr ?_
          rw [h5]
          exact List.mem_cons_self c rest
        · exact Or.inl h6
      · exact Or.inr (List.mem_cons_of_mem c h4)

theorem containsSeq_shp (a : List Char) :
    containsSeq marker ('S' :: 'H' :: '|' :: a) = containsSeq marker a := by
  show (startsW marker ('S' :: 'H' :: '|' :: a) || ((startsW marker ('H' :: '|' :: a))
    || ((startsW marker ('|' :: a)) || containsSeq marker a))) = containsSeq marker a
  rw [startsW_marker_ne 'S' _ (by decide), startsW_marker_ne 'H' _ (by decide),
    startsW_marker_ne '|' _ (by decide)]
  simp

theorem chunksM_full :
    ∀ (n : Nat) (r : List Char), r.length ≤ n →
      ∀ chunk ∈ msplitAux ['M'] ('S' :: 'H' :: '|' :: r),
        startsW marker chunk = true ∧ containsSeq marker chunk.tail = false := by
  intro n
  induction n with
  | zero =>
    intro r hr chunk hc
    have hr0 : r = [] := List.length_eq_zero.mp (by omega)
    subst hr0
    rw [msplitAux_eq_nil ('S' :: 'H' :: '|' :: []) ['M'] ('S' :: 'H' :: '|' :: []) rfl] at hc
    simp only [List.mem_singleton] at hc
    subst hc
    exact ⟨by decide, by decide⟩
  | succ n ih =>
    intro r hr chunk hc
    have hshp := breakMarker_shp r
    rcases hsnd : (breakMarker r).2 with _ | ⟨d, b'⟩
    · rw [msplitAux_eq_nil _ ['M'] _ (by rw [hshp, hsnd])] at hc
      simp only [List.mem_singleton] at hc
      subst hc
      constructor
      · show startsW marker (['M'] ++ 'S' :: 'H' :: '|' :: (breakMarker r).1) = true
        exact startsW_append marker _
      · show containsSeq marker ('S' :: 'H' :: '|' :: (breakMarker r).1) = false
        rw [containsSeq_shp]
        exact breakMarker_fst_noOcc r
    · have hmk : startsW marker (d :: b') = true := by
        rcases breakMarker_snd r with h0 | h0
        · rw [hsnd] at h0; exact absurd h0 (by simp)
        · rw [hsnd] at h0; exact h0
      obtain ⟨t, ht⟩ := startsW_destruct marker _ hmk
      have ht2 : d :: b' = 'M' :: ('S' :: 'H' :: '|' :: t) := ht
      injection ht2 with hd hb'
      rw [msplitAux_eq_cons _ ['M'] _ (d :: b') b' d rfl (by rw [hshp, hsnd])] at hc
      rcases List.mem_cons.mp hc with hc1 | hc2
      · subst hc1
        constructor
        · show startsW marker (['M'] ++ 'S' :: 'H' :: '|' :: (breakMarker r).1) = true
          exact startsW_append marker _
        · show containsSeq marker ('S' :: 'H' :: '|' :: (breakMarker r).1) = false
          rw [containsSeq_shp]
          exact breakMarker_fst_noOcc r
      · have hlen : b'.length ≤ n := by
          have h1 : (breakMarker r).2.length ≤ r.length := breakMarker_snd_len r
          rw [hsnd] at h1
          simp only [List.length_cons] at h1
          omega
        rw [hd, hb'] at hc2
        exact ih t (by rw [hb'] at hlen; simp only [List.length_cons] at hlen; omega) chunk hc2

theorem top_chunks (t : List Char) :
    ∃ tcs, msplitAux [] t = (breakMarker t).1 :: tcs ∧
      ∀ c ∈ tcs, startsW marker c = true ∧ containsSeq marker c.tail = false := by
  rcases hsnd : (breakMarker t).2 with _ | ⟨d, b'⟩
  · refine ⟨[], ?_, by simp⟩
    rw [msplitAux_eq_nil t [] (breakMarker t).1 (by rw [← hsnd])]
    rfl
  · have hmk : startsW marker (d :: b') = true := by
      rcases breakMarker_snd t with h0 | h0
      · rw [hsnd] at h0; exact absurd h0 (by simp)
      · rw [hsnd] at h0; exact h0
    obtain ⟨u, hu⟩ := startsW_destruct marker _ hmk
    have hu2 : d :: b' = 'M' :: ('S' :: 'H' :: '|' :: u) := hu
    injection hu2 with hd hb'
    refine ⟨msplitAux [d] b', ?_, ?_⟩
    · rw [msplitAux_eq_cons t [] (breakMarker t).1 (d :: b') b' d rfl (by rw [← hsnd])]
      rfl
    · intro c hc
      rw [hd, hb'] at hc
      exact chunksM_full u.length u (le_refl _) c hc

theorem strip_marker_full (c : List Char) (h1 : startsW marker c = true)
    (h2 : containsSeq marker c.tail = false) :
    strip c ≠ [] ∧ startsW marker (strip c) = true ∧
      containsSeq marker (strip c).tail = false := by
  have hsm := strip_marker c h1
  have hne : strip c ≠ [] := by
    intro hnil
    rw [hnil] at hsm
    exact absurd hsm (by decide)
  refine ⟨hne, hsm, ?_⟩
  obtain ⟨t, ht⟩ := startsW_destruct marker c h1
  have hl : lstrip c = c := by
    rw [ht]
    exact lstrip_cons_not_spc 'M' _ (by decide)
  have hstrip : strip c = rstrip c := by
    unfold strip
    rw [hl]
  cases hocc : containsSeq marker (strip c).tail with
  | false => rfl
  | true =>
    exfalso
    obtain ⟨w, hw⟩ := rstrip_exists c
    rw [← hstrip] at hw
    obtain ⟨s, hs⟩ := startsW_destruct marker (strip c) hsm
    rw [hs] at hw hocc
    have htail : c.tail = ('S' :: 'H' :: '|' :: s) ++ w := by
      rw [← hw]
      rfl
    have hocc2 : containsSeq marker ('S' :: 'H' :: '|' :: s) = true := hocc
    have hc3 : containsSeq marker c.tail = true := by
      rw [htail]
      exact containsSeq_append_right_mono marker _ w hocc2
    rw [hc3] at h2
    exact absurd h2 (by simp)

theorem strip_noOcc (c : List Char) (h : containsSeq marker c = false) :
    containsSeq marker (strip c) = false := by
  cases hocc : containsSeq marker (strip c) with
  | false => rfl
  | true =>
    rcases dropWhile_suffix_own isSpc c with ⟨u, hu⟩
    obtain ⟨w, hw⟩ := rstrip_exists (lstrip c)
    have hc : c = u ++ (strip c ++ w) := by
      unfold strip
      rw [hw]
      exact hu.symm
    have : containsSeq marker c = true := by
      rw [hc]
      refine containsSeq_append_left_mono marker (by decide) u _ ?_
      exact containsSeq_append_right_mono marker _ w hocc
    rw [this] at h
    exact absurd h (by simp)

theorem joinWith_cons_eq (m : List Char) (tl : List (List Char)) :
    joinWith '\n' (m :: tl) = m ++ tailJoin tl := by
  cases tl with
  | nil => simp [joinWith, tailJoin]
  | cons t ts => rfl

theorem nonempty_keep (x : List Char) (h : x ≠ []) : (!x.isEmpty) = true := by
  cases x with
  | nil => exact absurd rfl h
  | cons c t => rfl

theorem filter_all_keep (q : List Char → Bool) (L : List (List Char))
    (h : ∀ x ∈ L, q x = true) : L.filter q = L := by
  induction L with
  | nil => rfl
  | cons x t ih =>
    rw [List.filter_cons, if_pos (h x (List.mem_cons_self x t))]
    rw [ih (fun y hy => h y (List.mem_cons_of_mem x hy))]

theorem chunksE_strip (ms : List (List Char)) (h : ∀ m ∈ ms, m ≠ [] ∧ strip m = m) :
    (chunksE ms).map strip = ms := by
  induction ms with
  | nil => rfl
  | cons m tl ih =>
    cases tl with
    | nil =>
      show [strip m] = [m]
      rw [(h m (List.mem_cons_self m [])).2]
    | cons t ts =>
      show strip (m ++ ['\n']) :: (chunksE (t :: ts)).map strip = m :: t :: ts
      have hm := h m (List.mem_cons_self m (t :: ts))
      rw [strip_append_nl m hm.1 hm.2,
        ih (fun y hy => h y (List.mem_cons_of_mem m hy))]

theorem msplitAux_marker_join :
    ∀ (tl : List (List Char)) (nt : List Char),
      (∀ m ∈ ('M' :: nt) :: tl, m ≠ [] ∧ strip m = m ∧ startsW marker m = true ∧
        containsSeq marker m.tail = false) →
      msplitAux ['M'] (nt ++ tailJoin tl) = chunksE (('M' :: nt) :: tl) := by
  intro tl
  induction tl with
  | nil =>
    intro nt h
    have hm := h ('M' :: nt) (List.mem_cons_self _ _)
    have hnt : containsSeq marker nt = false := hm.2.2.2
    have hjt : nt ++ tailJoin [] = nt := by simp [tailJoin]
    rw [hjt, msplitAux_eq_nil nt ['M'] nt (breakMarker_no_marker nt hnt)]
    rfl
  | cons n ts ih =>
    intro nt h
    have hm := h ('M' :: nt) (List.mem_cons_self _ _)
    have hnt : containsSeq marker nt = false := hm.2.2.2
    have hn := h n (List.mem_cons_of_mem _ (List.mem_cons_self n ts))
    obtain ⟨t, htn⟩ := startsW_destruct marker n hn.2.2.1
    have hu : startsW marker (joinWith '\n' (n :: ts)) = true := by
      rw [joinWith_cons_eq]
      exact startsW_append_mono marker n _ hn.2.2.1
    have hbmu : breakMarker (joinWith '\n' (n :: ts)) = ([], joinWith '\n' (n :: ts)) :=
      breakMarker_of_startsW _ hu
    have hbm : breakMarker (nt ++ tailJoin (n :: ts))
        = (nt ++ ['\n'], joinWith '\n' (n :: ts)) := by
      show breakMarker (nt ++ '\n' :: joinWith '\n' (n :: ts)) = _
      rw [breakMarker_append_nl nt _ hnt, hbmu]
    have hu2 : joinWith '\n' (n :: ts) = 'M' :: (('S' :: 'H' :: '|' :: t) ++ tailJoin ts) := by
      rw [joinWith_cons_eq, htn]
      rfl
    rw [msplitAux_eq_cons (nt ++ tailJoin (n :: ts)) ['M'] (nt ++ ['\n'])
      (joinWith '\n' (n :: ts)) (('S' :: 'H' :: '|' :: t) ++ tailJoin ts) 'M' hu2 hbm]
    have hih := ih ('S' :: 'H' :: '|' :: t) (by
      intro x hx
      rcases List.mem_cons.mp hx with hx1 | hx2
      · rw [hx1, show ('M' : Char) :: 'S' :: 'H' :: '|' :: t = marker ++ t from rfl, ← htn]
        exact hn
      · exact h x (List.mem_cons_of_mem _ (List.mem_cons_of_mem n hx2)))
    rw [hih]
    show (('M' :: nt) ++ ['\n']) :: chunksE (('M' :: ('S' :: 'H' :: '|' :: t)) :: ts)
        = chunksE (('M' :: nt) :: n :: ts)
    rw [show ('M' : Char) :: 'S' :: 'H' :: '|' :: t = marker ++ t from rfl, ← htn]
    rfl

theorem split_join_canonical (ms : List (List Char))
    (h0 : ∀ m ∈ ms, ('\r' : Char) ∉ m)
    (h1 : ∀ m ∈ ms, m ≠ [] ∧ strip m = m)
    (h2 : ∀ m ∈ ms, containsSeq marker m = false ∨
      (startsW marker m = true ∧ containsSeq marker m.tail = false))
    (h3 : ∀ m ∈ ms.drop 1, startsW marker m = true) :
    split_hl7_messages (joinWith '\n' ms) = ms := by
  have hcr : crlf (joinWith '\n' ms) = joinWith '\n' ms := by
    refine crlf_id_of_no_cr _ ?_
    intro hmem
    rcases chars_joinWith '\n' ms '\r' hmem with hx | ⟨x, hx, hcx⟩
    · exact absurd hx (by decide)
    · exact h0 x hx hcx
  unfold split_hl7_messages
  rw [hcr]
  cases ms with
  | nil => rfl
  | cons m tl =>
    have hmprops := h1 m (List.mem_cons_self m tl)
    have htlok : ∀ x ∈ tl, x ≠ [] ∧ strip x = x ∧ startsW marker x = true ∧
        containsSeq marker x.tail = false := by
      intro x hx
      have hb := h1 x (List.mem_cons_of_mem m hx)
      have hmk : startsW marker x = true := h3 x (by simpa using hx)
      refine ⟨hb.1, hb.2, hmk, ?_⟩
      rcases h2 x (List.mem_cons_of_mem m hx) with hno | hyes
      · exfalso
        have hcx : containsSeq marker x = true := by
          cases x with
          | nil => exact absurd hmk (by decide)
          | cons c cs =>
            show (startsW marker (c :: cs) || containsSeq marker cs) = true
            rw [hmk]
            rfl
        rw [hcx] at hno
        exact absurd hno (by simp)
      · exact hyes.2
    rcases h2 m (List.mem_cons_self m tl) with hm | hm
    · -- head message contains no marker at all
      cases tl with
      | nil =>
        show (((msplitAux [] (joinWith '\n' [m])).map strip).filter
          (fun x => !x.isEmpty)) = [m]
        have hj : joinWith '\n' [m] = m := rfl
        rw [hj, msplitAux_no_marker m [] hm]
        show ([strip m]).filter (fun x => !x.isEmpty) = [m]
        rw [hmprops.2, List.filter_cons, if_pos (nonempty_keep m hmprops.1)]
        rfl
      | cons n ts =>
        have hjoin : joinWith '\n' (m :: n :: ts) = m ++ '\n' :: joinWith '\n' (n :: ts) := rfl
        have hnprops := htlok n (List.mem_cons_self n ts)
        have hu : startsW marker (joinWith '\n' (n :: ts)) = true := by
          rw [joinWith_cons_eq]
          exact startsW_append_mono marker n _ hnprops.2.2.1
        obtain ⟨t, htn⟩ := startsW_destruct marker _ hu
        have hbm : breakMarker (joinWith '\n' (m :: n :: ts))
            = (m ++ ['\n'], joinWith '\n' (n :: ts)) := by
          rw [hjoin, breakMarker_append_nl m _ hm, breakMarker_of_startsW _ hu]
        rw [msplitAux_eq_cons (joinWith '\n' (m :: n :: ts)) [] (m ++ ['\n'])
          (joinWith '\n' (n :: ts)) ('S' :: 'H' :: '|' :: t) 'M' (by rw [htn]; rfl) hbm]
        obtain ⟨nt2, hn2⟩ : ∃ nt2, n = 'M' :: nt2 := by
          obtain ⟨t2, ht2⟩ := startsW_destruct marker n hnprops.2.2.1
          exact ⟨'S' :: 'H' :: '|' :: t2, ht2⟩
        have heq : ('S' :: 'H' :: '|' :: t) = nt2 ++ tailJoin ts := by
          have h5 : joinWith '\n' (n :: ts) = n ++ tailJoin ts := joinWith_cons_eq n ts
          rw [htn, hn2] at h5
          have h7 : ('M' : Char) :: ('S' :: 'H' :: '|' :: t)
            = 'M' :: (nt2 ++ tailJoin ts) := h5
          exact congrArg List.tail h7
        have hihyp : ∀ x ∈ ('M' :: nt2) :: ts, x ≠ [] ∧ strip x = x ∧
            startsW marker x = true ∧ containsSeq marker x.tail = false := by
          intro x hx
          rcases List.mem_cons.mp hx with hx1 | hx2
          · rw [hx1, ← hn2]
            exact hnprops
          · exact htlok x (List.mem_cons_of_mem n hx2)
        rw [heq, msplitAux_marker_join ts nt2 hihyp, ← hn2]
        simp only [List.reverse_nil, List.nil_append, List.map_cons]
        rw [strip_append_nl m hmprops.1 hmprops.2, chunksE_strip (n :: ts)
          (fun y hy => ⟨(htlok y hy).1, (htlok y hy).2.1⟩)]
        rw [List.filter_cons, if_pos (nonempty_keep m hmprops.1)]
        rw [filter_all_keep _ _ (fun y hy => nonempty_keep y (htlok y hy).1)]
    · -- head message itself begins with the marker
      have hu : startsW marker (joinWith '\n' (m :: tl)) = true := by
        rw [joinWith_cons_eq]
        exact startsW_append_mono marker m _ hm.1
      obtain ⟨mt, hmt⟩ : ∃ mt, m = 'M' :: mt := by
        obtain ⟨t2, ht2⟩ := startsW_destruct marker m hm.1
        exact ⟨'S' :: 'H' :: '|' :: t2, ht2⟩
      have hbm : breakMarker (joinWith '\n' (m :: tl)) = ([], joinWith '\n' (m :: tl)) :=
        breakMarker_of_startsW _ hu
      have hj : joinWith '\n' (m :: tl) = 'M' :: (mt ++ tailJoin tl) := by
        rw [joinWith_cons_eq, hmt]
        rfl
      rw [msplitAux_eq_cons (joinWith '\n' (m :: tl)) [] [] (joinWith '\n' (m :: tl))
        (mt ++ tailJoin tl) 'M' hj hbm]
      have hihyp : ∀ x ∈ ('M' :: mt) :: tl, x ≠ [] ∧ strip x = x ∧
          startsW marker x = true ∧ containsSeq marker x.tail = false := by
        intro x hx
        rcases List.mem_cons.mp hx with hx1 | hx2
        · rw [hx1, ← hmt]
          refine ⟨hmprops.1, hmprops.2, hm.1, hm.2⟩
        · exact htlok x hx2
      rw [msplitAux_marker_join tl mt hihyp, ← hmt]
      simp only [List.reverse_nil, List.nil_append, List.map_cons]
      rw [chunksE_strip (m :: tl) (fun y hy => h1 y hy)]
      rw [List.filter_cons, if_neg (by decide)]
      exact filter_all_keep _ _ (fun y hy => nonempty_keep y (h1 y hy).1)

theorem split_mem_chunk (raw : List Char) (m : List Char) (hm : m ∈ split_hl7_messages raw) :
    ∃ chunk ∈ msplitAux [] (crlf raw), m = strip chunk ∧ m ≠ [] := by
  unfold split_hl7_messages at hm
  rw [List.mem_filter] at hm
  rcases List.mem_map.mp hm.1 with ⟨c0, hc0, hc0s⟩
  refine ⟨c0, hc0, hc0s.symm, ?_⟩
  intro hnil
  rw [hnil] at hm
  exact absurd hm.2 (by simp)

theorem split_messages_no_cr (raw : List Char) :
    ∀ m ∈ split_hl7_messages raw, ('\r' : Char) ∉ m := by
  intro m hm hcr
  obtain ⟨chunk, hchunk, hms, _⟩ := split_mem_chunk raw m hm
  rw [hms] at hcr
  have h1 : ('\r' : Char) ∈ chunk := mem_strip_subset '\r' chunk hcr
  rcases msplitAux_chars (crlf raw) [] chunk hchunk '\r' h1 with h2 | h3
  · simp at h2
  · exact crlf_no_cr raw h3

theorem split_messages_basic (raw : List Char) :
    ∀ m ∈ split_hl7_messages raw, m ≠ [] ∧ strip m = m := by
  intro m hm
  obtain ⟨chunk, _, hms, hne⟩ := split_mem_chunk raw m hm
  refine ⟨hne, ?_⟩
  rw [hms]
  exact strip_idem chunk

theorem split_messages_occ (raw : List Char) :
    ∀ m ∈ split_hl7_messages raw, containsSeq marker m = false ∨
      (startsW marker m = true ∧ containsSeq marker m.tail = false) := by
  intro m hm
  obtain ⟨chunk, hchunk, hms, _⟩ := split_mem_chunk raw m hm
  obtain ⟨tcs, htop, htcs⟩ := top_chunks (crlf raw)
  rw [htop] at hchunk
  rcases List.mem_cons.mp hchunk with h1 | h2
  · refine Or.inl ?_
    rw [hms, h1]
    exact strip_noOcc _ (breakMarker_fst_noOcc (crlf raw))
  · have hc := htcs chunk h2
    have hfull := strip_marker_full chunk hc.1 hc.2
    refine Or.inr ?_
    rw [hms]
    exact ⟨hfull.2.1, hfull.2.2⟩

theorem split_messages_tail (raw : List Char) :
    ∀ m ∈ (split_hl7_messages raw).drop 1, startsW marker m = true := by
  intro m hm
  unfold split_hl7_messages at hm
  rcases hL : msplitAux [] (crlf raw) with _ | ⟨c0, tcs⟩
  · exact absurd hL (msplitAux_ne_nil (crlf raw) [])
  · rw [hL] at hm
    simp only [List.map_cons] at hm
    rw [List.filter_cons] at hm
    have hsub : m ∈ (tcs.map strip).filter (fun x => !x.isEmpty) := by
      by_cases hq : (!(strip c0).isEmpty) = true
      · rw [if_pos hq] at hm
        simpa using hm
      · rw [if_neg hq] at hm
        exact List.drop_subset 1 _ hm
    rw [List.mem_filter] at hsub
    rcases List.mem_map.mp hsub.1 with ⟨c, hcmem, hc⟩
    have hcm : startsW marker c = true := by
      apply chunks_structure (crlf raw)
      rw [hL]
      simpa using hcmem
    rw [← hc]
    exact strip_marker c hcm

/-- C4 (amended): splitting, rejoining with the line separator, and
splitting again yields exactly the same message list — the split output
is a fixed point of the rejoin-resplit pipeline, even though (as the
counterexample shows) the rejoined text itself need not reproduce the
original blob even up to CR/LF normalization. -/
theorem c4_amended_resplit_roundtrip (raw : List Char) :
    split_hl7_messages (joinWith '\n' (split_hl7_messages raw)) = split_hl7_messages raw :=
  split_join_canonical (split_hl7_messages raw)
    (split_messages_no_cr raw)
    (split_messages_basic raw)
    (split_messages_occ raw)
    (split_messages_tail raw)

theorem c7_witness :
    applyEditVal (splitOnC '|' (str ("PID|1||999^^^MRN||SMITH^JANE"))) ⟨5, some 2⟩
        (str ("DeLeTe")) =
      applyEditVal (splitOnC '|' (str ("PID|1||999^^^MRN||SMITH^JANE"))) ⟨5, some 2⟩ [] :=
  c7_delete_token_clears.1 _ ⟨5, some 2⟩ (str ("DeLeTe")) (by decide)
